import Mathlib

/-!
Verification of `src/common/group_data.h` (xgboost `ParallelGroupBuilder`).

The C++ component groups an unordered stream of (key, value) pairs into a
CSR-style layout: a flat value array `data_` and an offset array `rptr_`
with `data[rptr[k] : rptr[k+1]]` holding the values of key `k`.  It runs in
four caller-ordered phases: `InitBudget`, `AddBudget` (per-thread budget
counting), `InitStorage` (sequential prefix sum turning budgets into write
cursors), `Push` (each thread writes values at its private cursors).

The shallow embedding below translates each member function into a pure
Lean function on an explicit state record.  `std::vector` becomes `List`,
vector indexing becomes `List.getD` / `List.set` (the C++ code performs the
corresponding accesses without bounds checks; the safety claim C9 proves
they stay in bounds under the documented protocol), `std::vector::resize`
becomes `listResize`.  The interleaving of the parallel phases is modelled
by an arbitrary sequence of `Push` events folded over the state, which is
adequate because each `Push` touches only its own thread's cursor row plus
the single `data` cell that cursor designates.
-/

namespace GroupData

/-- State of `ParallelGroupBuilder`: the offset vector `rptr_`, the value
vector `data_` and the per-thread counter table `thread_rptr_`. -/
structure Builder (α : Type) where
  rptr : List Nat
  data : List α
  threadRptr : List (List Nat)

/-- `std::vector::resize(n, fill)`: truncate to `n` elements, or extend
with copies of `fill`. -/
def listResize (l : List α) (n : Nat) (fill : α) : List α :=
  if n ≤ l.length then l.take n else l ++ List.replicate (n - l.length) fill

/-- `InitBudget(nkeys, nthread)`: `thread_rptr_` is resized to `nthread`
rows and every row resized to `nkeys` and filled with `0`; the net result
is a fresh all-zero `nthread × nkeys` table. -/
def initBudget (nkeys nthread : Nat) : List (List Nat) :=
  List.replicate nthread (List.replicate nkeys 0)

/-- `AddBudget(key, threadid, nelem)`: grow row `threadid` to width
`key + 1` (zero filled) when needed, then `trptr[key] += nelem`. -/
def addBudget (rows : List (List Nat)) (key threadid nelem : Nat) :
    List (List Nat) :=
  let trptr := rows.getD threadid []
  let grown := if trptr.length < key + 1
    then trptr ++ List.replicate (key + 1 - trptr.length) 0 else trptr
  rows.set threadid (grown.set key (grown.getD key 0 + nelem))

/-- The first loop of `InitStorage`: for each thread row, if
`rptr_.size() <= thread_rptr_[tid].size()` then
`rptr_.resize(thread_rptr_[tid].size() + 1, fill)`. -/
def resizeAll (rptr : List Nat) (fill : Nat) : List (List Nat) → List Nat
  | [] => rptr
  | row :: rest =>
      resizeAll (if rptr.length ≤ row.length
        then listResize rptr (row.length + 1) fill else rptr) fill rest

/-- Inner loop of `InitStorage` for one key `i`: over the thread rows in
order, when `i < trptr.size()` read `thread_count = trptr[i]`, overwrite
`trptr[i] = count + rptr_.back()` (the cursor) and advance `count`.
`base` is `rptr_.back()`, which is constant throughout the whole nested
loop: the only write to the last cell of `rptr_` happens in the final
outer iteration, after its inner loop has run. -/
def cursorRows (i base : Nat) : Nat → List (List Nat) → Nat × List (List Nat)
  | count, [] => (count, [])
  | count, row :: rest =>
      if i < row.length then
        let r := cursorRows i base (count + row.getD i 0) rest
        (r.1, row.set i (count + base) :: r.2)
      else
        let r := cursorRows i base count rest
        (r.1, row :: r.2)

/-- Outer loop of `InitStorage`: `for (i = 0; i + 1 < rptr_.size(); ++i)`
run the inner loop for key `i`, then `rptr_[i+1] += count`.  `fuel` is the
number of remaining iterations and `i` the current key. -/
def storageLoop (base : Nat) :
    Nat → Nat → Nat → List Nat → List (List Nat) → List Nat × List (List Nat)
  | 0, _, _, rptr, rows => (rptr, rows)
  | fuel + 1, i, count, rptr, rows =>
      let r := cursorRows i base count rows
      storageLoop base fuel (i + 1) r.1
        (rptr.set (i + 1) (rptr.getD (i + 1) 0 + r.1)) r.2

/-- `InitStorage()`: extend `rptr_` (fill value: current tail, `0` when
empty), convert budgets to cursors with the prefix-sum loop, then
`data_.resize(rptr_.back())` with default element `dflt`. -/
def initStorage (b : Builder α) (dflt : α) : Builder α :=
  let fill := b.rptr.getLast?.getD 0
  let rptr1 := resizeAll b.rptr fill b.threadRptr
  let res := storageLoop (rptr1.getLast?.getD 0) (rptr1.length - 1) 0 0
    rptr1 b.threadRptr
  { rptr := res.1
    data := listResize b.data (res.1.getLast?.getD 0) dflt
    threadRptr := res.2 }

/-- `Push(key, value, threadid)`: read the cursor
`rp = thread_rptr_[threadid][key]`, write `data_[rp] = value`, store back
`rp + 1`. -/
def push (b : Builder α) (key : Nat) (value : α) (threadid : Nat) :
    Builder α :=
  let row := b.threadRptr.getD threadid []
  let rp := row.getD key 0
  { rptr := b.rptr
    data := b.data.set rp value
    threadRptr := b.threadRptr.set threadid (row.set key (rp + 1)) }

/-- One phase-4 `Push` event: calling thread, key, value. -/
structure PushOp (α : Type) where
  tid : Nat
  key : Nat
  val : α

/-- Run a whole phase-4 schedule: fold the interleaved `Push` events over
the state, in the given order. -/
def pushAll (b : Builder α) (ps : List (PushOp α)) : Builder α :=
  ps.foldl (fun b p => push b p.key p.val p.tid) b

/-- The sequence of `data_` indices written by a phase-4 schedule: for each
event, the cursor value read by that `Push`. -/
def pushTrace : Builder α → List (PushOp α) → List Nat
  | _, [] => []
  | b, p :: ps =>
      (b.threadRptr.getD p.tid []).getD p.key 0 ::
        pushTrace (push b p.key p.val p.tid) ps

/-- `data[ptr[k] : ptr[k+1]]`, the segment of key `k`. -/
def segment (b : Builder α) (k : Nat) : List α :=
  (b.data.drop (b.rptr.getD k 0)).take (b.rptr.getD (k + 1) 0 - b.rptr.getD k 0)

/-- Budget declared by thread `t` for key `k` (a read of the counter
table; `0` when out of range). -/
def bud (rows : List (List Nat)) (t k : Nat) : Nat :=
  (rows.getD t []).getD k 0

/-- Total budget of key `k` over all threads. -/
def rowSum (rows : List (List Nat)) (k : Nat) : Nat :=
  (rows.map (fun row => row.getD k 0)).sum

/-- Total budget of keys `i, i+1, ..., i+n-1` over all threads. -/
def sumFrom (rows : List (List Nat)) (i n : Nat) : Nat :=
  ∑ j in Finset.range n, rowSum rows (i + j)

/-- Total budget of key `k` over threads `0, ..., t-1`. -/
def partSum (rows : List (List Nat)) (k t : Nat) : Nat :=
  ((rows.take t).map (fun row => row.getD k 0)).sum

/-- The absolute start position of thread `t`'s sub-range inside key `k`'s
segment, for a fresh build: all budgets of smaller keys, plus the budgets
of smaller-numbered threads for key `k`. -/
def startF (rows : List (List Nat)) (t k : Nat) : Nat :=
  sumFrom rows 0 k + partSum rows k t

/-- Number of `Push` events of thread `t` with key `k` in a schedule. -/
def cnt (ps : List (PushOp α)) (t k : Nat) : Nat :=
  (ps.filter (fun p => p.tid == t && p.key == k)).length

/-- The values thread `t` pushes with key `k`, in schedule order. -/
def valsOf (ps : List (PushOp α)) (t k : Nat) : List α :=
  (ps.filter (fun p => p.tid == t && p.key == k)).map PushOp.val

/-- All values pushed with key `k` (any thread), in schedule order. -/
def valsKey (ps : List (PushOp α)) (k : Nat) : List α :=
  (ps.filter (fun p => p.key == k)).map PushOp.val

/-- A whole phase-2 schedule: fold `AddBudget(key, threadid, nelem)` calls
(in the given order) over the counter table. -/
def addBudgetAll (rows : List (List Nat)) (calls : List (Nat × Nat × Nat)) :
    List (List Nat) :=
  calls.foldl (fun r c => addBudget r c.1 c.2.1 c.2.2) rows

/-- Monotonicity (non-decreasing) of an offset list. -/
def isMono : List Nat → Bool
  | [] => true
  | [_] => true
  | a :: b :: rest => decide (a ≤ b) && isMono (b :: rest)

/-- Counter table of the spec's end-to-end example: 2 threads, thread 0
declares budgets {0:1, 1:1}, thread 1 declares {1:1}, via `AddBudget`. -/
def exampleRows : List (List Nat) :=
  addBudget (addBudget (addBudget (initBudget 2 2) 1 0 1) 0 0 1) 1 1 1

/-- Push schedule of the spec's end-to-end example: thread 0 pushes
(key 1, 10) then (key 0, 11); thread 1 pushes (key 1, 20). -/
def examplePushes : List (PushOp Nat) := [⟨0, 1, 10⟩, ⟨0, 0, 11⟩, ⟨1, 1, 20⟩]

/-- The spec's end-to-end example, built with the four-phase protocol. -/
def exampleBuild : Builder Nat :=
  pushAll (initStorage ⟨[], [], exampleRows⟩ 0) examplePushes

/-- First build of the spec's append-mode scenario: 1 thread, budgets
{0:1, 1:1}, pushes (0, a), (1, b). -/
def appendScenario1 (a b : Nat) : Builder Nat :=
  pushAll
    (initStorage ⟨[], [], addBudget (addBudget (initBudget 2 1) 0 0 1) 1 0 1⟩ 0)
    [⟨0, 0, a⟩, ⟨0, 1, b⟩]

/-- Second build of the append-mode scenario, right after `InitStorage`:
the first build's arrays are reused and thread 0 declares budget {0:1}. -/
def appendStorage2 (a b : Nat) : Builder Nat :=
  initStorage ⟨(appendScenario1 a b).rptr, (appendScenario1 a b).data,
    addBudget (initBudget 1 1) 0 0 1⟩ 0

/-- Second build of the append-mode scenario after its single push (0, c). -/
def appendScenario2 (a b c : Nat) : Builder Nat :=
  pushAll (appendStorage2 a b) [⟨0, 0, c⟩]

/-- The length `rptr_` reaches after the resize loop of `InitStorage`,
starting from length `L`. -/
def resizeLen (L : Nat) : List (List Nat) → Nat
  | [] => L
  | row :: rest => resizeLen (if L ≤ row.length then row.length + 1 else L) rest

/-- `rptr_fill_value` of `InitStorage`: `rptr_.empty() ? 0 : rptr_.back()`. -/
def fillOf {α : Type} (b : Builder α) : Nat := b.rptr.getLast?.getD 0

/-- `rptr_` after the resize loop of `InitStorage`. -/
def rptrExt {α : Type} (b : Builder α) : List Nat :=
  resizeAll b.rptr (fillOf b) b.threadRptr

/-- The `(rptr_, thread_rptr_)` pair after the main loop of `InitStorage`. -/
def loopRes {α : Type} (b : Builder α) : List Nat × List (List Nat) :=
  storageLoop ((rptrExt b).getLast?.getD 0) ((rptrExt b).length - 1) 0 0
    (rptrExt b) b.threadRptr

/-! ### Basic list lemmas -/

theorem getD_set_self {α : Type} (l : List α) (i : Nat) (v d : α)
    (h : i < l.length) : (l.set i v).getD i d = v := by
  rw [List.getD_eq_getElem _ _ (by simpa using h)]
  exact List.getElem_set_self (by simpa using h)

theorem getD_set_ne {α : Type} (l : List α) (i j : Nat) (v d : α)
    (h : i ≠ j) : (l.set i v).getD j d = l.getD j d := by
  simp [List.getD_eq_getElem?_getD, List.getElem?_set_ne h]

theorem length_listResize {α : Type} (l : List α) (n : Nat) (f : α) :
    (listResize l n f).length = n := by
  unfold listResize; split <;> simp <;> omega

theorem listResize_eq_append {α : Type} (l : List α) (n : Nat) (f : α)
    (h : l.length ≤ n) :
    listResize l n f = l ++ List.replicate (n - l.length) f := by
  unfold listResize
  split
  · have hn : n = l.length := by omega
    subst hn; simp
  · rfl

theorem getLast_getD (l : List Nat) :
    l.getLast?.getD 0 = l.getD (l.length - 1) 0 := by
  rw [List.getLast?_eq_getElem?, List.getD_eq_getElem?_getD]

/-! ### The resize loop of `InitStorage` -/

theorem resizeLen_le (rows : List (List Nat)) : ∀ L, L ≤ resizeLen L rows := by
  induction rows with
  | nil => intro L; simp [resizeLen]
  | cons row rest ih =>
      intro L
      simp only [resizeLen]
      split
      · exact le_trans (by omega) (ih _)
      · exact ih L

theorem lt_resizeLen_of_mem (rows : List (List Nat)) :
    ∀ L row, row ∈ rows → row.length < resizeLen L rows := by
  induction rows with
  | nil => intro L row h; cases h
  | cons r rest ih =>
      intro L row h
      rcases List.mem_cons.mp h with h | h
      · subst h
        simp only [resizeLen]
        split
        · exact lt_of_lt_of_le (Nat.lt_succ_self _) (resizeLen_le rest _)
        · next hc => exact lt_of_lt_of_le (Nat.lt_of_not_le hc) (resizeLen_le rest _)
      · simp only [resizeLen]; exact ih _ row h

theorem resizeAll_eq (fill : Nat) (rows : List (List Nat)) :
    ∀ rptr : List Nat,
      resizeAll rptr fill rows =
        rptr ++ List.replicate (resizeLen rptr.length rows - rptr.length) fill := by
  induction rows with
  | nil => intro rptr; simp [resizeAll, resizeLen]
  | cons row rest ih =>
      intro rptr
      simp only [resizeAll, resizeLen]
      by_cases h : rptr.length ≤ row.length
      · rw [if_pos h, if_pos h, listResize_eq_append _ _ _ (by omega), ih,
          List.append_assoc, ← List.replicate_add]
        have hlen : (rptr ++ List.replicate (row.length + 1 - rptr.length) fill).length
            = row.length + 1 := by simp; omega
        rw [hlen]
        congr 2
        have := resizeLen_le rest (row.length + 1)
        omega
      · rw [if_neg h, if_neg h, ih]

theorem length_resizeAll (rptr : List Nat) (fill : Nat) (rows : List (List Nat)) :
    (resizeAll rptr fill rows).length = resizeLen rptr.length rows := by
  rw [resizeAll_eq]
  have := resizeLen_le rows rptr.length
  simp; omega

theorem getD_resizeAll_lt (rptr : List Nat) (fill : Nat) (rows : List (List Nat))
    (j : Nat) (h : j < rptr.length) :
    (resizeAll rptr fill rows).getD j 0 = rptr.getD j 0 := by
  rw [resizeAll_eq]
  exact List.getD_append _ _ _ _ h

theorem getD_resizeAll_ge (rptr : List Nat) (fill : Nat) (rows : List (List Nat))
    (j : Nat) (h : rptr.length ≤ j) (h2 : j < resizeLen rptr.length rows) :
    (resizeAll rptr fill rows).getD j 0 = fill := by
  rw [resizeAll_eq, List.getD_append_right _ _ _ _ h,
    List.getD_eq_getElem _ _ (by simp; omega)]
  simp

/-! ### Budget sums -/

theorem rowSum_cons (row : List Nat) (rest : List (List Nat)) (k : Nat) :
    rowSum (row :: rest) k = row.getD k 0 + rowSum rest k := by
  simp [rowSum]

theorem partSum_zero (rows : List (List Nat)) (k : Nat) : partSum rows k 0 = 0 := by
  simp [partSum]

theorem partSum_cons_succ (row : List Nat) (rest : List (List Nat)) (k t : Nat) :
    partSum (row :: rest) k (t + 1) = row.getD k 0 + partSum rest k t := by
  simp [partSum, List.take_succ_cons]

theorem partSum_succ (rows : List (List Nat)) (k : Nat) :
    ∀ t, t < rows.length → partSum rows k (t + 1) = partSum rows k t + bud rows t k := by
  induction rows with
  | nil => intro t h; simp at h
  | cons row rest ih =>
      intro t h
      cases t with
      | zero => simp [partSum_cons_succ, partSum_zero, bud]
      | succ s =>
          rw [partSum_cons_succ, partSum_cons_succ, ih s (by simpa using h)]
          simp [bud, Nat.add_assoc]

theorem partSum_length (rows : List (List Nat)) (k : Nat) :
    partSum rows k rows.length = rowSum rows k := by
  simp [partSum, rowSum, List.take_length]

theorem partSum_mono (rows : List (List Nat)) (k : Nat) :
    ∀ t t', t ≤ t' → partSum rows k t ≤ partSum rows k t' := by
  induction rows with
  | nil => intro t t' _; simp [partSum]
  | cons row rest ih =>
      intro t t' h
      cases t with
      | zero => simp [partSum_zero]
      | succ s =>
          cases t' with
          | zero => omega
          | succ s' =>
              rw [partSum_cons_succ, partSum_cons_succ]
              exact Nat.add_le_add_left (ih s s' (by omega)) _

theorem partSum_le_rowSum (rows : List (List Nat)) (k t : Nat) :
    partSum rows k t ≤ rowSum rows k := by
  by_cases h : t ≤ rows.length
  · rw [← partSum_length rows k]; exact partSum_mono rows k t rows.length h
  · rw [← partSum_length rows k]
    have : partSum rows k t = partSum rows k rows.length := by
      simp [partSum, List.take_of_length_le, List.take_length, le_of_lt (Nat.lt_of_not_le h)]
    omega

theorem partSum_congr (rows rows' : List (List Nat)) (k : Nat)
    (hlen : rows'.length = rows.length)
    (h : ∀ t, (rows'.getD t []).getD k 0 = (rows.getD t []).getD k 0) :
    ∀ t, partSum rows' k t = partSum rows k t := by
  induction rows generalizing rows' with
  | nil =>
      intro t
      have : rows' = [] := List.length_eq_zero.mp hlen
      subst this; rfl
  | cons row rest ih =>
      intro t
      cases rows' with
      | nil => simp at hlen
      | cons row' rest' =>
          cases t with
          | zero => simp [partSum_zero]
          | succ s =>
              rw [partSum_cons_succ, partSum_cons_succ]
              have h0 := h 0
              simp only [List.getD_cons_zero] at h0
              rw [h0, ih rest' (by simpa using hlen)
                (fun t => by have := h (t + 1); simpa using this) s]

theorem sumFrom_zero (rows : List (List Nat)) (i : Nat) : sumFrom rows i 0 = 0 := by
  simp [sumFrom]

theorem sumFrom_succ_front (rows : List (List Nat)) (i n : Nat) :
    sumFrom rows i (n + 1) = rowSum rows i + sumFrom rows (i + 1) n := by
  rw [sumFrom, Finset.sum_range_succ', add_comm]
  simp only [Nat.add_zero, sumFrom]
  congr 1
  apply Finset.sum_congr rfl
  intro j _
  congr 1
  omega

theorem sumFrom_succ_back (rows : List (List Nat)) (i n : Nat) :
    sumFrom rows i (n + 1) = sumFrom rows i n + rowSum rows (i + n) := by
  rw [sumFrom, Finset.sum_range_succ]; rfl

theorem sumFrom_congr (rows rows' : List (List Nat)) (i n : Nat)
    (h : ∀ j, i ≤ j → j < i + n → rowSum rows' j = rowSum rows j) :
    sumFrom rows' i n = sumFrom rows i n := by
  apply Finset.sum_congr rfl
  intro j hj
  exact h (i + j) (by omega) (by simp at hj; omega)

/-! ### The cursor-assignment inner loop -/

theorem cursorRows_fst (i base : Nat) :
    ∀ (rows : List (List Nat)) (c : Nat),
      (cursorRows i base c rows).1 = c + rowSum rows i := by
  intro rows
  induction rows with
  | nil => intro c; simp [cursorRows, rowSum]
  | cons row rest ih =>
      intro c
      simp only [cursorRows]
      split
      · rw [ih, rowSum_cons]; omega
      · next h =>
          have h0 : row.getD i 0 = 0 := List.getD_eq_default _ _ (by omega)
          rw [ih, rowSum_cons, h0]
          omega

theorem cursorRows_length (i base : Nat) :
    ∀ (rows : List (List Nat)) (c : Nat),
      ((cursorRows i base c rows).2).length = rows.length := by
  intro rows
  induction rows with
  | nil => intro c; simp [cursorRows]
  | cons row rest ih => intro c; simp only [cursorRows]; split <;> simp [ih]

theorem cursorRows_row (i base : Nat) :
    ∀ (rows : List (List Nat)) (c t : Nat),
      ((cursorRows i base c rows).2).getD t [] =
        if i < (rows.getD t []).length then
          (rows.getD t []).set i (c + partSum rows i t + base)
        else rows.getD t [] := by
  intro rows
  induction rows with
  | nil => intro c t; simp [cursorRows]
  | cons row rest ih =>
      intro c t
      cases t with
      | zero =>
          simp only [cursorRows, List.getD_cons_zero]
          split
          · next h => simp [h, partSum_zero]
          · next h => simp [h]
      | succ s =>
          simp only [cursorRows, List.getD_cons_succ]
          split
          · next h =>
              simp only [List.getD_cons_succ]
              rw [ih, partSum_cons_succ]
              congr 2
              omega
          · next h =>
              have h0 : row.getD i 0 = 0 := List.getD_eq_default _ _ (by omega)
              simp only [List.getD_cons_succ]
              rw [ih, partSum_cons_succ, h0]
              congr 2
              omega

theorem cursorRows_row_length (i base : Nat) (rows : List (List Nat)) (c t : Nat) :
    (((cursorRows i base c rows).2).getD t []).length = (rows.getD t []).length := by
  rw [cursorRows_row]; split <;> simp

theorem cursorRows_row_getD_ne (i base : Nat) (rows : List (List Nat))
    (c t j : Nat) (h : j ≠ i) :
    (((cursorRows i base c rows).2).getD t []).getD j 0 =
      (rows.getD t []).getD j 0 := by
  rw [cursorRows_row]
  split
  · exact getD_set_ne _ _ _ _ _ (fun hh => h hh.symm)
  · rfl

theorem cursorRows_row_getD_self (i base : Nat) (rows : List (List Nat))
    (c t : Nat) (h : i < (rows.getD t []).length) :
    (((cursorRows i base c rows).2).getD t []).getD i 0 =
      c + partSum rows i t + base := by
  rw [cursorRows_row, if_pos h]
  exact getD_set_self _ _ _ _ h

theorem cursorRows_rowSum (i base j : Nat) (hj : j ≠ i) :
    ∀ (rows : List (List Nat)) (c : Nat),
      rowSum (cursorRows i base c rows).2 j = rowSum rows j := by
  intro rows
  induction rows with
  | nil => intro c; simp [cursorRows]
  | cons row rest ih =>
      intro c
      simp only [cursorRows]
      split
      · rw [rowSum_cons, rowSum_cons, ih, getD_set_ne _ _ _ _ _ (fun h => hj h.symm)]
      · rw [rowSum_cons, rowSum_cons, ih]

theorem cursorRows_partSum (i base j : Nat) (hj : j ≠ i)
    (rows : List (List Nat)) (c t : Nat) :
    partSum (cursorRows i base c rows).2 j t = partSum rows j t := by
  exact partSum_congr rows _ j (cursorRows_length i base rows c)
    (fun t' => cursorRows_row_getD_ne i base rows c t' j hj) t

/-! ### The outer prefix-sum loop of `InitStorage` -/

theorem storageLoop_rptr_length (base : Nat) :
    ∀ fuel i c rptr rows,
      ((storageLoop base fuel i c rptr rows).1).length = rptr.length := by
  intro fuel
  induction fuel with
  | zero => intro i c rptr rows; rfl
  | succ fuel ih =>
      intro i c rptr rows
      simp only [storageLoop]
      rw [ih]
      simp

theorem storageLoop_rows_length (base : Nat) :
    ∀ fuel i c rptr rows,
      ((storageLoop base fuel i c rptr rows).2).length = rows.length := by
  intro fuel
  induction fuel with
  | zero => intro i c rptr rows; rfl
  | succ fuel ih =>
      intro i c rptr rows
      simp only [storageLoop]
      rw [ih, cursorRows_length]

theorem storageLoop_row_length (base : Nat) :
    ∀ fuel i c rptr rows t,
      (((storageLoop base fuel i c rptr rows).2).getD t []).length =
        (rows.getD t []).length := by
  intro fuel
  induction fuel with
  | zero => intro i c rptr rows t; rfl
  | succ fuel ih =>
      intro i c rptr rows t
      simp only [storageLoop]
      rw [ih, cursorRows_row_length]

theorem storageLoop_rptr_low (base : Nat) :
    ∀ fuel i c rptr rows j, j ≤ i →
      ((storageLoop base fuel i c rptr rows).1).getD j 0 = rptr.getD j 0 := by
  intro fuel
  induction fuel with
  | zero => intro i c rptr rows j _; rfl
  | succ fuel ih =>
      intro i c rptr rows j hj
      simp only [storageLoop]
      rw [ih _ _ _ _ j (by omega), getD_set_ne _ _ _ _ _ (by omega)]

theorem storageLoop_rptr_high (base : Nat) :
    ∀ fuel i c rptr rows j, i + fuel < j →
      ((storageLoop base fuel i c rptr rows).1).getD j 0 = rptr.getD j 0 := by
  intro fuel
  induction fuel with
  | zero => intro i c rptr rows j _; rfl
  | succ fuel ih =>
      intro i c rptr rows j hj
      simp only [storageLoop]
      rw [ih _ _ _ _ j (by omega), getD_set_ne _ _ _ _ _ (by omega)]

theorem storageLoop_rptr_win (base : Nat) :
    ∀ fuel i c rptr rows m, m < fuel → i + fuel < rptr.length →
      ((storageLoop base fuel i c rptr rows).1).getD (i + m + 1) 0 =
        rptr.getD (i + m + 1) 0 + c + sumFrom rows i (m + 1) := by
  intro fuel
  induction fuel with
  | zero => intro i c rptr rows m hm; omega
  | succ fuel ih =>
      intro i c rptr rows m hm hlen
      simp only [storageLoop]
      have hc1 : (cursorRows i base c rows).1 = c + rowSum rows i :=
        cursorRows_fst i base rows c
      cases m with
      | zero =>
          have h1 := storageLoop_rptr_low base fuel (i + 1)
            (cursorRows i base c rows).1
            (rptr.set (i + 1) (rptr.getD (i + 1) 0 + (cursorRows i base c rows).1))
            (cursorRows i base c rows).2 (i + 1) (le_refl _)
          have h2 : (rptr.set (i + 1)
                (rptr.getD (i + 1) 0 + (cursorRows i base c rows).1)).getD (i + 1) 0 =
              rptr.getD (i + 1) 0 + (cursorRows i base c rows).1 :=
            getD_set_self rptr (i + 1) _ 0 (by omega)
          have h3 : sumFrom rows i (0 + 1) = rowSum rows i := by
            rw [sumFrom_succ_front, sumFrom_zero]
            omega
          simp only [Nat.add_zero]
          rw [h1, h2, hc1, h3]
          omega
      | succ m' =>
          have hwin := ih (i + 1) (cursorRows i base c rows).1
            (rptr.set (i + 1) (rptr.getD (i + 1) 0 + (cursorRows i base c rows).1))
            (cursorRows i base c rows).2 m' (by omega) (by simp; omega)
          have hidx : i + 1 + m' + 1 = i + (m' + 1) + 1 := by omega
          rw [hidx] at hwin
          rw [hwin, getD_set_ne _ _ _ _ _ (by omega),
            sumFrom_congr rows (cursorRows i base c rows).2 (i + 1) (m' + 1)
              (fun j hj _ => cursorRows_rowSum i base j (by omega) rows c),
            hc1, sumFrom_succ_front rows i (m' + 1)]
          omega

theorem storageLoop_rows_out (base : Nat) :
    ∀ fuel i c rptr rows t k, k < i ∨ i + fuel ≤ k →
      (((storageLoop base fuel i c rptr rows).2).getD t []).getD k 0 =
        (rows.getD t []).getD k 0 := by
  intro fuel
  induction fuel with
  | zero => intro i c rptr rows t k _; rfl
  | succ fuel ih =>
      intro i c rptr rows t k hk
      simp only [storageLoop]
      rw [ih _ _ _ _ t k (by omega), cursorRows_row_getD_ne _ _ _ _ _ _ (by omega)]

theorem storageLoop_rows_win (base : Nat) :
    ∀ fuel i c rptr rows m t, m < fuel → i + m < (rows.getD t []).length →
      (((storageLoop base fuel i c rptr rows).2).getD t []).getD (i + m) 0 =
        base + c + sumFrom rows i m + partSum rows (i + m) t := by
  intro fuel
  induction fuel with
  | zero => intro i c rptr rows m t hm; omega
  | succ fuel ih =>
      intro i c rptr rows m t hm hk
      simp only [storageLoop]
      have hc1 : (cursorRows i base c rows).1 = c + rowSum rows i :=
        cursorRows_fst i base rows c
      cases m with
      | zero =>
          rw [storageLoop_rows_out base fuel (i + 1) _ _ _ t (i + 0) (by omega)]
          have := cursorRows_row_getD_self i base rows c t (by omega)
          simp only [Nat.add_zero] at *
          rw [this, sumFrom_zero]
          omega
      | succ m' =>
          have hwin := ih (i + 1) (cursorRows i base c rows).1
            (rptr.set (i + 1) (rptr.getD (i + 1) 0 + (cursorRows i base c rows).1))
            (cursorRows i base c rows).2 m' t (by omega)
            (by rw [cursorRows_row_length]; omega)
          have hidx : i + 1 + m' = i + (m' + 1) := by omega
          rw [hidx] at hwin
          rw [hwin,
            sumFrom_congr rows (cursorRows i base c rows).2 (i + 1) m'
              (fun j hj _ => cursorRows_rowSum i base j (by omega) rows c),
            cursorRows_partSum i base (i + (m' + 1)) (by omega) rows c t,
            hc1, sumFrom_succ_front rows i m']
          omega

/-! ### `InitStorage`, assembled -/

theorem initStorage_eq {α : Type} (b : Builder α) (d : α) :
    initStorage b d =
      ⟨(loopRes b).1, listResize b.data ((loopRes b).1.getLast?.getD 0) d,
        (loopRes b).2⟩ := rfl

theorem rptrExt_length {α : Type} (b : Builder α) :
    (rptrExt b).length = resizeLen b.rptr.length b.threadRptr :=
  length_resizeAll _ _ _

theorem rptrExt_getD_lt {α : Type} (b : Builder α) (j : Nat) (h : j < b.rptr.length) :
    (rptrExt b).getD j 0 = b.rptr.getD j 0 :=
  getD_resizeAll_lt _ _ _ _ h

theorem rptrExt_getD_ge {α : Type} (b : Builder α) (j : Nat)
    (h1 : b.rptr.length ≤ j) (h2 : j < (rptrExt b).length) :
    (rptrExt b).getD j 0 = fillOf b :=
  getD_resizeAll_ge _ _ _ _ h1 (rptrExt_length b ▸ h2)

theorem rptrExt_base {α : Type} (b : Builder α) :
    (rptrExt b).getLast?.getD 0 = fillOf b := by
  rw [getLast_getD]
  rcases Nat.eq_zero_or_pos (rptrExt b).length with h | h
  · rw [List.getD_eq_default _ _ (by omega)]
    have hr : b.rptr.length = 0 := by
      have := resizeLen_le b.threadRptr b.rptr.length
      rw [rptrExt_length] at h; omega
    simp [fillOf, List.length_eq_zero.mp hr]
  · by_cases hj : (rptrExt b).length - 1 < b.rptr.length
    · rw [rptrExt_getD_lt _ _ hj, fillOf, getLast_getD]
      have hle : b.rptr.length ≤ (rptrExt b).length := by
        rw [rptrExt_length]; exact resizeLen_le _ _
      have : (rptrExt b).length - 1 = b.rptr.length - 1 := by omega
      rw [this]
    · exact rptrExt_getD_ge _ _ (by omega) (by omega)

theorem initStorage_rptr_length {α : Type} (b : Builder α) (d : α) :
    (initStorage b d).rptr.length = (rptrExt b).length := by
  rw [initStorage_eq]
  exact storageLoop_rptr_length _ _ _ _ _ _

theorem initStorage_data_length {α : Type} (b : Builder α) (d : α) :
    (initStorage b d).data.length = (initStorage b d).rptr.getLast?.getD 0 := by
  rw [initStorage_eq]
  exact length_listResize _ _ _

theorem initStorage_threadRptr_length {α : Type} (b : Builder α) (d : α) :
    (initStorage b d).threadRptr.length = b.threadRptr.length := by
  rw [initStorage_eq]
  exact storageLoop_rows_length _ _ _ _ _ _

theorem initStorage_row_length {α : Type} (b : Builder α) (d : α) (t : Nat) :
    ((initStorage b d).threadRptr.getD t []).length =
      (b.threadRptr.getD t []).length := by
  rw [initStorage_eq]
  exact storageLoop_row_length _ _ _ _ _ _ _

theorem initStorage_rptr_getD_zero {α : Type} (b : Builder α) (d : α) :
    (initStorage b d).rptr.getD 0 0 = b.rptr.getD 0 0 := by
  rw [initStorage_eq]
  show ((loopRes b).1).getD 0 0 = _
  rw [loopRes, storageLoop_rptr_low _ _ _ _ _ _ 0 (le_refl 0)]
  rcases Nat.eq_zero_or_pos b.rptr.length with h | h
  · rcases Nat.eq_zero_or_pos (rptrExt b).length with h2 | h2
    · rw [List.getD_eq_default _ _ (by omega), List.getD_eq_default _ _ (by omega)]
    · rw [rptrExt_getD_ge _ _ (by omega) (by omega), fillOf, getLast_getD,
        List.getD_eq_default _ _ (by omega), List.getD_eq_default _ _ (by omega)]
  · exact rptrExt_getD_lt _ _ h

theorem initStorage_rptr_getD_win {α : Type} (b : Builder α) (d : α) (j : Nat)
    (h1 : 1 ≤ j) (h2 : j < (rptrExt b).length) :
    (initStorage b d).rptr.getD j 0 =
      (rptrExt b).getD j 0 + sumFrom b.threadRptr 0 j := by
  rw [initStorage_eq]
  show ((loopRes b).1).getD j 0 = _
  rw [loopRes]
  have hwin := storageLoop_rptr_win ((rptrExt b).getLast?.getD 0)
    ((rptrExt b).length - 1) 0 0 (rptrExt b) b.threadRptr (j - 1)
    (by omega) (by omega)
  have hidx : 0 + (j - 1) + 1 = j := by omega
  rw [hidx] at hwin
  have hsf : sumFrom b.threadRptr 0 (j - 1 + 1) = sumFrom b.threadRptr 0 j := by
    congr 1; omega
  rw [hwin, hsf]
  omega

theorem initStorage_rptr_getD_ge {α : Type} (b : Builder α) (d : α) (j : Nat)
    (h : (rptrExt b).length ≤ j) : (initStorage b d).rptr.getD j 0 = 0 :=
  List.getD_eq_default _ _ (by rw [initStorage_rptr_length]; omega)

theorem initStorage_cursor {α : Type} (b : Builder α) (d : α) (t k : Nat)
    (hk : k < (b.threadRptr.getD t []).length) :
    ((initStorage b d).threadRptr.getD t []).getD k 0 =
      fillOf b + sumFrom b.threadRptr 0 k + partSum b.threadRptr k t := by
  have ht : t < b.threadRptr.length := by
    by_contra h
    rw [List.getD_eq_default _ _ (by omega)] at hk
    simp at hk
  have hmem : b.threadRptr.getD t [] ∈ b.threadRptr := by
    rw [List.getD_eq_getElem _ _ ht]
    exact List.getElem_mem ht
  have hlt : (b.threadRptr.getD t []).length < (rptrExt b).length := by
    rw [rptrExt_length]
    exact lt_resizeLen_of_mem _ _ _ hmem
  rw [initStorage_eq]
  show (((loopRes b).2).getD t []).getD k 0 = _
  rw [loopRes]
  have hwin := storageLoop_rows_win ((rptrExt b).getLast?.getD 0)
    ((rptrExt b).length - 1) 0 0 (rptrExt b) b.threadRptr k t
    (by omega) (by omega)
  simp only [Nat.zero_add] at hwin
  rw [hwin, rptrExt_base]
  omega

/-! ### Fresh builds: closed forms after `InitStorage` -/

theorem fresh_rptrExt {α : Type} (rows : List (List Nat)) :
    rptrExt (⟨[], [], rows⟩ : Builder α) = List.replicate (resizeLen 0 rows) 0 := by
  rw [rptrExt, resizeAll_eq]
  simp [fillOf]

theorem fresh_rptr_getD {α : Type} (rows : List (List Nat)) (d : α) (j : Nat)
    (hj : j < resizeLen 0 rows) :
    (initStorage ⟨[], [], rows⟩ d).rptr.getD j 0 = sumFrom rows 0 j := by
  rcases Nat.eq_zero_or_pos j with h0 | h0
  · subst h0
    rw [initStorage_rptr_getD_zero, sumFrom_zero]
    rfl
  · rw [initStorage_rptr_getD_win _ _ _ h0
      (by rw [fresh_rptrExt]; simpa using hj), fresh_rptrExt]
    rw [List.getD_eq_getElem _ _ (by simpa using hj)]
    simp

theorem fresh_rptr_getD_ge {α : Type} (rows : List (List Nat)) (d : α) (j : Nat)
    (hj : resizeLen 0 rows ≤ j) :
    (initStorage ⟨[], [], rows⟩ d).rptr.getD j 0 = 0 := by
  apply initStorage_rptr_getD_ge
  rw [rptrExt_length]
  simpa using hj

theorem fresh_cursor {α : Type} (rows : List (List Nat)) (d : α) (t k : Nat)
    (hk : k < (rows.getD t []).length) :
    ((initStorage ⟨[], [], rows⟩ d).threadRptr.getD t []).getD k 0 =
      startF rows t k := by
  rw [initStorage_cursor _ _ _ _ hk, startF]
  show 0 + sumFrom rows 0 k + partSum rows k t = _
  omega

theorem fresh_data_length {α : Type} (rows : List (List Nat)) (d : α) :
    (initStorage ⟨[], [], rows⟩ d).data.length =
      sumFrom rows 0 (resizeLen 0 rows - 1) := by
  rw [initStorage_data_length, getLast_getD, initStorage_rptr_length]
  rcases Nat.eq_zero_or_pos (rptrExt (⟨[], [], rows⟩ : Builder α)).length with h | h
  · rw [List.getD_eq_default _ _ (by rw [initStorage_rptr_length]; omega)]
    rw [fresh_rptrExt] at h
    simp at h
    rw [h]
    rw [sumFrom_zero]
  · have hL : (rptrExt (⟨[], [], rows⟩ : Builder α)).length = resizeLen 0 rows := by
      rw [fresh_rptrExt]; simp
    rw [hL] at h ⊢
    exact fresh_rptr_getD rows d _ (by omega)

theorem fresh_row_length {α : Type} (rows : List (List Nat)) (d : α) (t : Nat) :
    ((initStorage ⟨[], [], rows⟩ d).threadRptr.getD t []).length =
      (rows.getD t []).length :=
  initStorage_row_length _ _ _

/-! ### Arithmetic facts about `startF` -/

theorem sumFrom_mono (rows : List (List Nat)) (i : Nat) {n n' : Nat} (h : n ≤ n') :
    sumFrom rows i n ≤ sumFrom rows i n' :=
  Finset.sum_le_sum_of_subset (Finset.range_subset.mpr h)

theorem startF_succ_t (rows : List (List Nat)) (t k : Nat) (ht : t < rows.length) :
    startF rows (t + 1) k = startF rows t k + bud rows t k := by
  rw [startF, startF, partSum_succ rows k t ht]
  omega

theorem startF_bud_le_next (rows : List (List Nat)) (t k : Nat)
    (ht : t < rows.length) :
    startF rows t k + bud rows t k ≤ sumFrom rows 0 (k + 1) := by
  rw [← startF_succ_t rows t k ht, startF]
  have h1 := partSum_le_rowSum rows k (t + 1)
  have h2 := sumFrom_succ_back rows 0 k
  rw [Nat.zero_add] at h2
  omega

theorem startF_mono_lex (rows : List (List Nat)) (t k t' k' : Nat)
    (ht : t < rows.length) (hlex : k < k' ∨ (k = k' ∧ t < t')) :
    startF rows t k + bud rows t k ≤ startF rows t' k' := by
  rcases hlex with h | ⟨he, h⟩
  · have h1 := startF_bud_le_next rows t k ht
    have h2 : sumFrom rows 0 (k + 1) ≤ sumFrom rows 0 k' := sumFrom_mono _ _ (by omega)
    have h3 : sumFrom rows 0 k' ≤ startF rows t' k' := by rw [startF]; omega
    omega
  · subst he
    rw [← startF_succ_t rows t k ht, startF, startF]
    have := partSum_mono rows k (t + 1) t' (by omega)
    omega

/-! ### Basic facts about `Push` schedules -/

theorem pushAll_nil {α : Type} (b : Builder α) : pushAll b [] = b := rfl

theorem pushAll_cons {α : Type} (b : Builder α) (p : PushOp α) (ps : List (PushOp α)) :
    pushAll b (p :: ps) = pushAll (push b p.key p.val p.tid) ps := rfl

theorem cnt_nil {α : Type} (t k : Nat) : cnt ([] : List (PushOp α)) t k = 0 := rfl

theorem cnt_cons_self {α : Type} (p : PushOp α) (ps : List (PushOp α)) :
    cnt (p :: ps) p.tid p.key = cnt ps p.tid p.key + 1 := by
  simp [cnt, List.filter_cons]

theorem cnt_cons_ne {α : Type} (p : PushOp α) (ps : List (PushOp α)) (t k : Nat)
    (h : ¬(p.tid = t ∧ p.key = k)) : cnt (p :: ps) t k = cnt ps t k := by
  have hb : (p.tid == t && p.key == k) = false := by
    rcases Decidable.em (p.tid = t) with h1 | h1
    · rcases Decidable.em (p.key = k) with h2 | h2
      · exact absurd ⟨h1, h2⟩ h
      · simp [h2]
    · simp [h1]
  simp [cnt, List.filter_cons, hb]

theorem valsOf_cons_self {α : Type} (p : PushOp α) (ps : List (PushOp α)) :
    valsOf (p :: ps) p.tid p.key = p.val :: valsOf ps p.tid p.key := by
  simp [valsOf, List.filter_cons]

theorem valsOf_cons_ne {α : Type} (p : PushOp α) (ps : List (PushOp α)) (t k : Nat)
    (h : ¬(p.tid = t ∧ p.key = k)) : valsOf (p :: ps) t k = valsOf ps t k := by
  have hb : (p.tid == t && p.key == k) = false := by
    rcases Decidable.em (p.tid = t) with h1 | h1
    · rcases Decidable.em (p.key = k) with h2 | h2
      · exact absurd ⟨h1, h2⟩ h
      · simp [h2]
    · simp [h1]
  simp [valsOf, List.filter_cons, hb]

theorem length_valsOf {α : Type} (ps : List (PushOp α)) (t k : Nat) :
    (valsOf ps t k).length = cnt ps t k := by
  simp [valsOf, cnt]

theorem cnt_append {α : Type} (ps qs : List (PushOp α)) (t k : Nat) :
    cnt (ps ++ qs) t k = cnt ps t k + cnt qs t k := by
  simp [cnt]

theorem cnt_take_le {α : Type} (ps : List (PushOp α)) (t k m : Nat) :
    cnt (ps.take m) t k ≤ cnt ps t k := by
  conv_rhs => rw [← List.take_append_drop m ps]
  rw [cnt_append]
  omega

/-! ### The phase-4 master invariant

After the cursors have been materialised, run any interleaving `ps` of
`Push` events.  `start`/`bud0` describe the cursor layout (start of each
(thread, key) sub-range and its capacity), `done` how many pushes each
(thread, key) pair has already performed, `lenr` the row lengths, `N` the
`data` length and `T` the thread count. -/

theorem pushAll_spec {α : Type} (d : α) (start bud0 : Nat → Nat → Nat)
    (lenr : Nat → Nat) (T N : Nat)
    (hmono : ∀ t k t' k', t < T → t' < T → k < lenr t → k' < lenr t' →
      (k < k' ∨ (k = k' ∧ t < t')) → start t k + bud0 t k ≤ start t' k')
    (hN : ∀ t k, t < T → k < lenr t → start t k + bud0 t k ≤ N) :
    ∀ (ps : List (PushOp α)) (b : Builder α) (done : Nat → Nat → Nat),
      b.threadRptr.length = T →
      (∀ t, t < T → (b.threadRptr.getD t []).length = lenr t) →
      b.data.length = N →
      (∀ t k, t < T → k < lenr t →
        (b.threadRptr.getD t []).getD k 0 = start t k + done t k) →
      (∀ t k, t < T → k < lenr t → done t k + cnt ps t k ≤ bud0 t k) →
      (∀ p, p ∈ ps → p.tid < T ∧ p.key < lenr p.tid) →
      (pushAll b ps).rptr = b.rptr ∧
      (pushAll b ps).threadRptr.length = T ∧
      (∀ t, t < T → ((pushAll b ps).threadRptr.getD t []).length = lenr t) ∧
      (pushAll b ps).data.length = N ∧
      (∀ t k, t < T → k < lenr t →
        ((pushAll b ps).threadRptr.getD t []).getD k 0 =
          start t k + done t k + cnt ps t k) ∧
      (∀ t k j, t < T → k < lenr t → j < cnt ps t k →
        (pushAll b ps).data.getD (start t k + done t k + j) d =
          (valsOf ps t k).getD j d) ∧
      (∀ i, (∀ t k, t < T → k < lenr t →
          i < start t k + done t k ∨ start t k + done t k + cnt ps t k ≤ i) →
        (pushAll b ps).data.getD i d = b.data.getD i d) := by
  intro ps
  induction ps with
  | nil =>
      intro b done h1 h2 h3 h4 h5 h6
      refine ⟨rfl, h1, h2, h3, ?_, ?_, ?_⟩
      · intro t k ht hk
        rw [pushAll_nil, cnt_nil, h4 t k ht hk]
        omega
      · intro t k j ht hk hj
        rw [cnt_nil] at hj
        omega
      · intro i _
        rfl
  | cons p ps ih =>
      intro b done h1 h2 h3 h4 h5 h6
      obtain ⟨hpt, hpk⟩ := h6 p (List.mem_cons_self p ps)
      have hcnt1 : cnt (p :: ps) p.tid p.key = cnt ps p.tid p.key + 1 :=
        cnt_cons_self p ps
      have h5p := h5 p.tid p.key hpt hpk
      have hdlt : done p.tid p.key < bud0 p.tid p.key := by omega
      have hNp := hN p.tid p.key hpt hpk
      have hcurp : (b.threadRptr.getD p.tid []).getD p.key 0 =
          start p.tid p.key + done p.tid p.key := h4 p.tid p.key hpt hpk
      have hb1rows : (push b p.key p.val p.tid).threadRptr =
          b.threadRptr.set p.tid ((b.threadRptr.getD p.tid []).set p.key
            ((b.threadRptr.getD p.tid []).getD p.key 0 + 1)) := rfl
      have hb1data : (push b p.key p.val p.tid).data =
          b.data.set ((b.threadRptr.getD p.tid []).getD p.key 0) p.val := rfl
      have hlen1 : (push b p.key p.val p.tid).threadRptr.length = T := by
        rw [hb1rows]; simp [h1]
      have hrowlen1 : ∀ t, t < T →
          ((push b p.key p.val p.tid).threadRptr.getD t []).length = lenr t := by
        intro t ht
        rw [hb1rows]
        by_cases hteq : p.tid = t
        · subst hteq
          rw [getD_set_self _ _ _ _ (by omega), List.length_set]
          exact h2 p.tid ht
        · rw [getD_set_ne _ _ _ _ _ hteq]
          exact h2 t ht
      have hdata1 : (push b p.key p.val p.tid).data.length = N := by
        rw [hb1data]; simp [h3]
      have hcur1 : ∀ t k, t < T → k < lenr t →
          ((push b p.key p.val p.tid).threadRptr.getD t []).getD k 0 =
            start t k + (if t = p.tid ∧ k = p.key then done t k + 1
              else done t k) := by
        intro t k ht hk
        by_cases hteq : t = p.tid
        · subst hteq
          rw [hb1rows, getD_set_self _ _ _ _ (by omega)]
          by_cases hkeq : k = p.key
          · subst hkeq
            rw [getD_set_self _ _ _ _ (by rw [h2 p.tid ht]; exact hk),
              h4 p.tid p.key ht hk, if_pos ⟨rfl, rfl⟩]
            omega
          · rw [getD_set_ne _ _ _ _ _ (fun hh => hkeq hh.symm), h4 p.tid k ht hk,
              if_neg (fun hh => hkeq hh.2)]
        · rw [hb1rows, getD_set_ne _ _ _ _ _ (fun hh => hteq hh.symm),
            h4 t k ht hk, if_neg (fun hh => hteq hh.1)]
      have hdone1 : ∀ t k, t < T → k < lenr t →
          (if t = p.tid ∧ k = p.key then done t k + 1 else done t k) +
            cnt ps t k ≤ bud0 t k := by
        intro t k ht hk
        by_cases hsame : t = p.tid ∧ k = p.key
        · obtain ⟨rfl, rfl⟩ := hsame
          rw [if_pos ⟨rfl, rfl⟩]
          omega
        · rw [if_neg hsame]
          have h5' := h5 t k ht hk
          rw [cnt_cons_ne p ps t k (fun hh => hsame ⟨hh.1.symm, hh.2.symm⟩)] at h5'
          exact h5'
      have hmem1 : ∀ q, q ∈ ps → q.tid < T ∧ q.key < lenr q.tid :=
        fun q hq => h6 q (List.mem_cons_of_mem p hq)
      obtain ⟨i1, i2, i3, i4, i5, i6, i7⟩ := ih (push b p.key p.val p.tid)
        (fun t k => if t = p.tid ∧ k = p.key then done t k + 1 else done t k)
        hlen1 hrowlen1 hdata1 hcur1 hdone1 hmem1
      rw [pushAll_cons]
      refine ⟨i1.trans rfl, i2, i3, i4, ?_, ?_, ?_⟩
      · intro t k ht hk
        have h := i5 t k ht hk
        by_cases hsame : t = p.tid ∧ k = p.key
        · obtain ⟨rfl, rfl⟩ := hsame
          rw [if_pos ⟨rfl, rfl⟩] at h
          rw [h, cnt_cons_self]
          omega
        · rw [if_neg hsame] at h
          rw [h, cnt_cons_ne p ps t k (fun hh => hsame ⟨hh.1.symm, hh.2.symm⟩)]
      · intro t k j ht hk hj
        by_cases hsame : t = p.tid ∧ k = p.key
        · obtain ⟨rfl, rfl⟩ := hsame
          cases j with
          | zero =>
              have hframe : ∀ t' k', t' < T → k' < lenr t' →
                  start p.tid p.key + done p.tid p.key < start t' k' +
                    (if t' = p.tid ∧ k' = p.key then done t' k' + 1
                      else done t' k') ∨
                  start t' k' + (if t' = p.tid ∧ k' = p.key then done t' k' + 1
                    else done t' k') + cnt ps t' k' ≤
                    start p.tid p.key + done p.tid p.key := by
                intro t' k' ht' hk'
                by_cases hsame' : t' = p.tid ∧ k' = p.key
                · obtain ⟨rfl, rfl⟩ := hsame'
                  rw [if_pos ⟨rfl, rfl⟩]
                  left
                  omega
                · rw [if_neg hsame']
                  have hd := hdone1 t' k' ht' hk'
                  rw [if_neg hsame'] at hd
                  rcases Nat.lt_trichotomy k' p.key with hk2 | hk2 | hk2
                  · right
                    have hm := hmono t' k' p.tid p.key ht' hpt hk' hpk (Or.inl hk2)
                    omega
                  · subst hk2
                    rcases Nat.lt_trichotomy t' p.tid with ht2 | ht2 | ht2
                    · right
                      have hm := hmono t' p.key p.tid p.key ht' hpt hk' hpk
                        (Or.inr ⟨rfl, ht2⟩)
                      omega
                    · exact absurd ⟨ht2, rfl⟩ hsame'
                    · left
                      have hm := hmono p.tid p.key t' p.key hpt ht' hpk hk'
                        (Or.inr ⟨rfl, ht2⟩)
                      omega
                  · left
                    have hm := hmono p.tid p.key t' k' hpt ht' hpk hk'
                      (Or.inl hk2)
                    omega
              have hun := i7 (start p.tid p.key + done p.tid p.key) hframe
              simp only [Nat.add_zero]
              rw [hun, hb1data, hcurp,
                getD_set_self _ _ _ _ (by rw [h3]; omega), valsOf_cons_self]
              rfl
          | succ j' =>
              have hj' : j' < cnt ps p.tid p.key := by
                rw [cnt_cons_self] at hj; omega
              have h := i6 p.tid p.key j' hpt hpk hj'
              rw [if_pos ⟨rfl, rfl⟩] at h
              have hidx : start p.tid p.key + (done p.tid p.key + 1) + j' =
                  start p.tid p.key + done p.tid p.key + (j' + 1) := by omega
              rw [hidx] at h
              rw [h, valsOf_cons_self, List.getD_cons_succ]
        · have hne : ¬(p.tid = t ∧ p.key = k) :=
            fun hh => hsame ⟨hh.1.symm, hh.2.symm⟩
          have hj2 : j < cnt ps t k := by rw [cnt_cons_ne p ps t k hne] at hj; exact hj
          have h := i6 t k j ht hk hj2
          rw [if_neg hsame] at h
          rw [h, valsOf_cons_ne p ps t k hne]
      · intro i hi
        have hi' : ∀ t' k', t' < T → k' < lenr t' →
            i < start t' k' + (if t' = p.tid ∧ k' = p.key then done t' k' + 1
              else done t' k') ∨
            start t' k' + (if t' = p.tid ∧ k' = p.key then done t' k' + 1
              else done t' k') + cnt ps t' k' ≤ i := by
          intro t' k' ht' hk'
          have h := hi t' k' ht' hk'
          by_cases hsame' : t' = p.tid ∧ k' = p.key
          · obtain ⟨rfl, rfl⟩ := hsame'
            rw [if_pos ⟨rfl, rfl⟩]
            rw [cnt_cons_self] at h
            omega
          · rw [if_neg hsame']
            rw [cnt_cons_ne p ps t' k'
              (fun hh => hsame' ⟨hh.1.symm, hh.2.symm⟩)] at h
            exact h
        rw [i7 i hi', hb1data, hcurp]
        have hp := hi p.tid p.key hpt hpk
        rw [cnt_cons_self] at hp
        exact getD_set_ne _ _ _ _ _ (by omega)

/-! ### Protocol facts: matched budgets and pushes -/

theorem getD_drop {α : Type} (l : List α) (n i : Nat) (d : α)
    (h : n + i < l.length) : (l.drop n).getD i d = l.getD (n + i) d := by
  rw [List.getD_eq_getElem _ _ (by simp; omega), List.getD_eq_getElem _ _ h]
  simp

theorem getD_take {α : Type} (l : List α) (n i : Nat) (d : α)
    (h1 : i < n) (h2 : i < l.length) : (l.take n).getD i d = l.getD i d := by
  rw [List.getD_eq_getElem _ _ (by simp; omega), List.getD_eq_getElem _ _ h2]
  simp [List.getElem_take]

theorem bud_pos_lt (rows : List (List Nat)) (t k : Nat) (h : 0 < bud rows t k) :
    k < (rows.getD t []).length := by
  by_contra hc
  rw [bud, List.getD_eq_default _ _ (by omega)] at h
  omega

theorem bud_pos_t_lt (rows : List (List Nat)) (t k : Nat) (h : 0 < bud rows t k) :
    t < rows.length := by
  by_contra hc
  have hnil : rows.getD t [] = [] := List.getD_eq_default _ _ (by omega)
  rw [bud, hnil] at h
  simp [List.getD] at h

theorem startF_T (rows : List (List Nat)) (k : Nat) :
    startF rows rows.length k = sumFrom rows 0 (k + 1) := by
  have h2 := sumFrom_succ_back rows 0 k
  rw [Nat.zero_add] at h2
  rw [startF, partSum_length, h2]

theorem cnt_eq_bud {α : Type} (rows : List (List Nat)) (ps : List (PushOp α))
    (H1 : ∀ p ∈ ps, p.tid < rows.length ∧ p.key < (rows.getD p.tid []).length)
    (H2 : ∀ t, t < rows.length → ∀ k, k < (rows.getD t []).length →
      bud rows t k = cnt ps t k) (t k : Nat) :
    cnt ps t k = bud rows t k := by
  by_cases hvalid : t < rows.length ∧ k < (rows.getD t []).length
  · exact (H2 t hvalid.1 k hvalid.2).symm
  · have hfil : ps.filter (fun p => p.tid == t && p.key == k) = [] := by
      rw [List.filter_eq_nil_iff]
      intro p hp hb
      obtain ⟨hp1, hp2⟩ := H1 p hp
      simp only [Bool.and_eq_true, beq_iff_eq] at hb
      rw [hb.1] at hp1 hp2
      rw [hb.2] at hp2
      exact hvalid ⟨hp1, hp2⟩
    have h1 : cnt ps t k = 0 := by rw [cnt, hfil]; rfl
    have h2 : bud rows t k = 0 := by
      rcases Decidable.em (t < rows.length) with ht | ht
      · have hk : ¬k < (rows.getD t []).length := fun hh => hvalid ⟨ht, hh⟩
        rw [bud, List.getD_eq_default _ _ (by omega)]
      · have hnil : rows.getD t [] = [] := List.getD_eq_default _ _ (by omega)
        rw [bud, hnil]
        simp [List.getD]
    omega

/-- Specialised phase-4 result for a fresh build with matched budgets. -/
theorem fresh_pushAll_spec {α : Type} (rows : List (List Nat)) (d : α)
    (ps : List (PushOp α))
    (H1 : ∀ p ∈ ps, p.tid < rows.length ∧ p.key < (rows.getD p.tid []).length)
    (H2 : ∀ t, t < rows.length → ∀ k, k < (rows.getD t []).length →
      bud rows t k = cnt ps t k) :
    (pushAll (initStorage ⟨[], [], rows⟩ d) ps).rptr =
      (initStorage ⟨[], [], rows⟩ d).rptr ∧
    (pushAll (initStorage ⟨[], [], rows⟩ d) ps).data.length =
      sumFrom rows 0 (resizeLen 0 rows - 1) ∧
    (∀ t k j, t < rows.length → k < (rows.getD t []).length → j < bud rows t k →
      (pushAll (initStorage ⟨[], [], rows⟩ d) ps).data.getD
          (startF rows t k + j) d = (valsOf ps t k).getD j d) := by
  have hN' : ∀ t k, t < rows.length → k < (rows.getD t []).length →
      startF rows t k + bud rows t k ≤ sumFrom rows 0 (resizeLen 0 rows - 1) := by
    intro t k ht hk
    have h1 := startF_bud_le_next rows t k ht
    have hmem : rows.getD t [] ∈ rows := by
      rw [List.getD_eq_getElem _ _ ht]
      exact List.getElem_mem ht
    have h2 := lt_resizeLen_of_mem rows 0 _ hmem
    have h3 : sumFrom rows 0 (k + 1) ≤ sumFrom rows 0 (resizeLen 0 rows - 1) :=
      sumFrom_mono _ _ (by omega)
    omega
  obtain ⟨s1, s2, s3, s4, s5, s6, s7⟩ := pushAll_spec d (startF rows) (bud rows)
    (fun t => (rows.getD t []).length) rows.length
    (sumFrom rows 0 (resizeLen 0 rows - 1))
    (fun t k t' k' ht _ _ _ hlex => startF_mono_lex rows t k t' k' ht hlex)
    (fun t k ht hk => hN' t k ht hk)
    ps (initStorage ⟨[], [], rows⟩ d) (fun _ _ => 0)
    (initStorage_threadRptr_length _ d)
    (fun t _ => fresh_row_length rows d t)
    (fresh_data_length rows d)
    (fun t k _ hk => by
      show ((initStorage ⟨[], [], rows⟩ d).threadRptr.getD t []).getD k 0 =
        startF rows t k + 0
      rw [fresh_cursor rows d t k hk]
      omega)
    (fun t k ht hk => by
      show 0 + cnt ps t k ≤ bud rows t k
      have := H2 t ht k hk
      omega)
    H1
  refine ⟨s1, s4, fun t k j ht hk hj => ?_⟩
  have h := s6 t k j ht hk (by rw [cnt_eq_bud rows ps H1 H2]; exact hj)
  simpa using h

/-- Tiling a key's segment into the per-thread blocks, in thread order. -/
theorem tile {α : Type} (rows : List (List Nat)) (ps : List (PushOp α)) (d : α)
    (data : List α) (N k : Nat)
    (hdlen : data.length = N)
    (hend : sumFrom rows 0 (k + 1) ≤ N)
    (hcnt : ∀ t k', cnt ps t k' = bud rows t k')
    (hwin : ∀ t j, t < rows.length → j < bud rows t k →
      data.getD (startF rows t k + j) d = (valsOf ps t k).getD j d) :
    ∀ n t, t + n = rows.length →
      (data.drop (startF rows t k)).take
          (sumFrom rows 0 (k + 1) - startF rows t k) =
        List.flatten ((List.range' t n).map (fun t' => valsOf ps t' k)) := by
  intro n
  induction n with
  | zero =>
      intro t ht
      have heq : t = rows.length := by omega
      subst heq
      rw [startF_T rows k]
      simp
  | succ n ihn =>
      intro t ht
      have htT : t < rows.length := by omega
      have hsucc := startF_succ_t rows t k htT
      have hnext := startF_bud_le_next rows t k htT
      have hle : startF rows (t + 1) k ≤ sumFrom rows 0 (k + 1) := by
        rw [← startF_T rows k, startF, startF]
        have := partSum_mono rows k (t + 1) rows.length (by omega)
        omega
      have harith : sumFrom rows 0 (k + 1) - startF rows t k =
          bud rows t k + (sumFrom rows 0 (k + 1) - startF rows (t + 1) k) := by
        omega
      rw [harith, List.take_add, List.range'_succ t n 1, List.map_cons,
        List.flatten_cons]
      congr 1
      · apply List.ext_getElem
        · rw [List.length_take, List.length_drop, hdlen, length_valsOf, hcnt]
          omega
        · intro j hj1 hj2
          have hjb : j < bud rows t k := by
            rw [length_valsOf, hcnt] at hj2
            exact hj2
          have hw := hwin t j htT hjb
          rw [← List.getD_eq_getElem _ d hj1, ← List.getD_eq_getElem _ d hj2,
            getD_take _ _ _ _ hjb (by rw [List.length_drop, hdlen]; omega),
            getD_drop _ _ _ _ (by rw [hdlen]; omega), hw]
      · rw [List.drop_drop, ← hsucc]
        exact ihn (t + 1) (by omega)

/-- The main segment characterisation for a fresh build with matched
budgets: key `k`'s segment is the concatenation, in increasing thread-id
order, of each thread's pushed values for `k`, in push order. -/
theorem segment_flatten {α : Type} (rows : List (List Nat)) (d : α)
    (ps : List (PushOp α))
    (H1 : ∀ p ∈ ps, p.tid < rows.length ∧ p.key < (rows.getD p.tid []).length)
    (H2 : ∀ t, t < rows.length → ∀ k, k < (rows.getD t []).length →
      bud rows t k = cnt ps t k) (k : Nat) :
    segment (pushAll (initStorage ⟨[], [], rows⟩ d) ps) k =
      List.flatten ((List.range rows.length).map (fun t => valsOf ps t k)) := by
  obtain ⟨hrptr, hdlen, hwin⟩ := fresh_pushAll_spec rows d ps H1 H2
  have hcnt := cnt_eq_bud rows ps H1 H2
  by_cases hk : k + 1 < resizeLen 0 rows
  · have hptrk : (pushAll (initStorage ⟨[], [], rows⟩ d) ps).rptr.getD k 0 =
        sumFrom rows 0 k := by
      rw [hrptr]
      exact fresh_rptr_getD rows d k (by omega)
    have hptrk1 : (pushAll (initStorage ⟨[], [], rows⟩ d) ps).rptr.getD (k + 1) 0 =
        sumFrom rows 0 (k + 1) := by
      rw [hrptr]
      exact fresh_rptr_getD rows d (k + 1) hk
    have hs0 : startF rows 0 k = sumFrom rows 0 k := by
      rw [startF, partSum_zero]
      omega
    rw [segment, hptrk, hptrk1, ← hs0, List.range_eq_range']
    exact tile rows ps d _ (sumFrom rows 0 (resizeLen 0 rows - 1)) k hdlen
      (sumFrom_mono _ _ (by omega)) hcnt
      (fun t j ht hj => hwin t k j ht (bud_pos_lt rows t k (by omega)) hj)
      rows.length 0 (by omega)
  · have hflat : List.flatten ((List.range rows.length).map
        (fun t => valsOf ps t k)) = [] := by
      rw [List.flatten_eq_nil_iff]
      intro l hl
      obtain ⟨t, ht, rfl⟩ := List.mem_map.mp hl
      have htT : t < rows.length := List.mem_range.mp ht
      have hmem : rows.getD t [] ∈ rows := by
        rw [List.getD_eq_getElem _ _ htT]
        exact List.getElem_mem htT
      have hlen2 := lt_resizeLen_of_mem rows 0 _ hmem
      have hb0 : bud rows t k = 0 := by
        rw [bud, List.getD_eq_default _ _ (by omega)]
      apply List.length_eq_zero.mp
      rw [length_valsOf, hcnt, hb0]
    have h1 : (pushAll (initStorage ⟨[], [], rows⟩ d) ps).rptr.getD (k + 1) 0 = 0 := by
      rw [hrptr]
      exact fresh_rptr_getD_ge rows d (k + 1) (by omega)
    rw [hflat, segment, h1]
    simp

/-! ### Multiset bookkeeping: all pushed values of a key, across threads -/

theorem valsKey_cons_eq {α : Type} (p : PushOp α) (ps : List (PushOp α)) :
    valsKey (p :: ps) p.key = p.val :: valsKey ps p.key := by
  simp [valsKey, List.filter_cons]

theorem valsKey_cons_ne {α : Type} (p : PushOp α) (ps : List (PushOp α))
    (k : Nat) (h : p.key ≠ k) : valsKey (p :: ps) k = valsKey ps k := by
  simp [valsKey, List.filter_cons, h]

theorem flatten_insert_perm {α : Type} (v : α) :
    ∀ (T tid : Nat) (f g : Nat → List α), tid < T →
      (∀ t, t ≠ tid → f t = g t) → f tid = v :: g tid →
      List.Perm (List.flatten ((List.range T).map f))
        (v :: List.flatten ((List.range T).map g)) := by
  intro T
  induction T with
  | zero => intro tid f g htid; omega
  | succ T ihT =>
      intro tid f g htid hne heq
      rw [List.range_succ, List.map_append, List.map_append,
        List.flatten_append, List.flatten_append]
      by_cases hT : tid = T
      · subst hT
        have hmap : (List.range tid).map f = (List.range tid).map g :=
          List.map_congr_left
            (fun t htm => hne t (by have := List.mem_range.mp htm; omega))
        rw [hmap]
        simp only [List.map_cons, List.map_nil, List.flatten_cons,
          List.flatten_nil, List.append_nil, heq]
        exact List.perm_middle
      · have htid' : tid < T := by omega
        have hfT : f T = g T := hne T (fun hh => hT hh.symm)
        have ih := ihT tid f g htid' hne heq
        simp only [List.map_cons, List.map_nil, List.flatten_cons,
          List.flatten_nil, List.append_nil, hfT]
        have := ih.append_right (g T)
        simpa using this

theorem valsKey_perm {α : Type} (k : Nat) :
    ∀ (ps : List (PushOp α)) (T : Nat), (∀ p ∈ ps, p.tid < T) →
      List.Perm (valsKey ps k)
        (List.flatten ((List.range T).map (fun t => valsOf ps t k))) := by
  intro ps
  induction ps with
  | nil =>
      intro T _
      have h : List.flatten ((List.range T).map
          (fun t => valsOf ([] : List (PushOp α)) t k)) = [] := by
        rw [List.flatten_eq_nil_iff]
        intro l hl
        obtain ⟨t, _, rfl⟩ := List.mem_map.mp hl
        rfl
      rw [h]
      exact List.Perm.refl _
  | cons p ps ih =>
      intro T hT
      have hpt : p.tid < T := hT p (List.mem_cons_self p ps)
      have ih' := ih T (fun q hq => hT q (List.mem_cons_of_mem p hq))
      by_cases hpk : p.key = k
      · subst hpk
        rw [valsKey_cons_eq]
        have hperm := flatten_insert_perm p.val T p.tid
          (fun t => valsOf (p :: ps) t p.key) (fun t => valsOf ps t p.key) hpt
          (fun t htn => valsOf_cons_ne p ps t p.key (fun hh => htn hh.1.symm))
          (valsOf_cons_self p ps)
        exact ((ih'.cons p.val).trans hperm.symm)
      · rw [valsKey_cons_ne p ps k hpk]
        have hmap : (List.range T).map (fun t => valsOf (p :: ps) t k) =
            (List.range T).map (fun t => valsOf ps t k) :=
          List.map_congr_left
            (fun t _ => valsOf_cons_ne p ps t k (fun hh => hpk hh.2))
        rw [hmap]
        exact ih'

/-! ### The write-index trace of a schedule -/

theorem push_step_facts {α : Type} (start : Nat → Nat → Nat) (lenr : Nat → Nat)
    (T : Nat) (b : Builder α) (done : Nat → Nat → Nat) (p : PushOp α)
    (h1 : b.threadRptr.length = T)
    (h2 : ∀ t, t < T → (b.threadRptr.getD t []).length = lenr t)
    (h4 : ∀ t k, t < T → k < lenr t →
      (b.threadRptr.getD t []).getD k 0 = start t k + done t k)
    (hpt : p.tid < T) (hpk : p.key < lenr p.tid) :
    (push b p.key p.val p.tid).threadRptr.length = T ∧
    (∀ t, t < T →
      ((push b p.key p.val p.tid).threadRptr.getD t []).length = lenr t) ∧
    (∀ t k, t < T → k < lenr t →
      ((push b p.key p.val p.tid).threadRptr.getD t []).getD k 0 =
        start t k +
          (if t = p.tid ∧ k = p.key then done t k + 1 else done t k)) := by
  have hb1rows : (push b p.key p.val p.tid).threadRptr =
      b.threadRptr.set p.tid ((b.threadRptr.getD p.tid []).set p.key
        ((b.threadRptr.getD p.tid []).getD p.key 0 + 1)) := rfl
  refine ⟨by rw [hb1rows]; simp [h1], ?_, ?_⟩
  · intro t ht
    rw [hb1rows]
    by_cases hteq : p.tid = t
    · subst hteq
      rw [getD_set_self _ _ _ _ (by omega), List.length_set]
      exact h2 p.tid ht
    · rw [getD_set_ne _ _ _ _ _ hteq]
      exact h2 t ht
  · intro t k ht hk
    by_cases hteq : t = p.tid
    · subst hteq
      rw [hb1rows, getD_set_self _ _ _ _ (by omega)]
      by_cases hkeq : k = p.key
      · subst hkeq
        rw [getD_set_self _ _ _ _ (by rw [h2 p.tid ht]; exact hk),
          h4 p.tid p.key ht hk, if_pos ⟨rfl, rfl⟩]
        omega
      · rw [getD_set_ne _ _ _ _ _ (fun hh => hkeq hh.symm), h4 p.tid k ht hk,
          if_neg (fun hh => hkeq hh.2)]
    · rw [hb1rows, getD_set_ne _ _ _ _ _ (fun hh => hteq hh.symm),
        h4 t k ht hk, if_neg (fun hh => hteq hh.1)]

theorem pushTrace_length {α : Type} :
    ∀ (ps : List (PushOp α)) (b : Builder α), (pushTrace b ps).length = ps.length := by
  intro ps
  induction ps with
  | nil => intro b; rfl
  | cons p ps ih => intro b; simp only [pushTrace, List.length_cons, ih]

theorem pushTrace_spec {α : Type} (start : Nat → Nat → Nat) (lenr : Nat → Nat)
    (T : Nat) :
    ∀ (ps : List (PushOp α)) (b : Builder α) (done : Nat → Nat → Nat),
      b.threadRptr.length = T →
      (∀ t, t < T → (b.threadRptr.getD t []).length = lenr t) →
      (∀ t k, t < T → k < lenr t →
        (b.threadRptr.getD t []).getD k 0 = start t k + done t k) →
      (∀ p ∈ ps, p.tid < T ∧ p.key < lenr p.tid) →
      ∀ (m : Nat) (hm : m < ps.length),
        (pushTrace b ps).getD m 0 =
          start (ps.get ⟨m, hm⟩).tid (ps.get ⟨m, hm⟩).key +
            done (ps.get ⟨m, hm⟩).tid (ps.get ⟨m, hm⟩).key +
            cnt (ps.take m) (ps.get ⟨m, hm⟩).tid (ps.get ⟨m, hm⟩).key := by
  intro ps
  induction ps with
  | nil => intro b done _ _ _ _ m hm; simp at hm
  | cons p ps ih =>
      intro b done h1 h2 h4 h6 m hm
      obtain ⟨hpt, hpk⟩ := h6 p (List.mem_cons_self p ps)
      obtain ⟨hl1, hl2, hl3⟩ := push_step_facts start lenr T b done p h1 h2 h4 hpt hpk
      cases m with
      | zero =>
          simp only [pushTrace, List.getD_cons_zero, List.get_cons_zero,
            List.take_zero, cnt_nil]
          have hg : (p :: ps).get ⟨0, hm⟩ = p := rfl
          rw [hg, h4 p.tid p.key hpt hpk]
          omega
      | succ m' =>
          have hm' : m' < ps.length := by simpa using hm
          have ih' := ih (push b p.key p.val p.tid)
            (fun t k => if t = p.tid ∧ k = p.key then done t k + 1 else done t k)
            hl1 hl2 hl3 (fun q hq => h6 q (List.mem_cons_of_mem p hq)) m' hm'
          simp only [pushTrace, List.getD_cons_succ, List.get_cons_succ]
          rw [ih', List.take_succ_cons]
          by_cases hsame : (ps.get ⟨m', hm'⟩).tid = p.tid ∧
              (ps.get ⟨m', hm'⟩).key = p.key
          · rw [if_pos ⟨hsame.1, hsame.2⟩]
            have hc : cnt (p :: ps.take m') (ps.get ⟨m', hm'⟩).tid
                (ps.get ⟨m', hm'⟩).key =
                cnt (ps.take m') (ps.get ⟨m', hm'⟩).tid
                  (ps.get ⟨m', hm'⟩).key + 1 := by
              rw [hsame.1, hsame.2]
              exact cnt_cons_self p (ps.take m')
            rw [hc]
            omega
          · rw [if_neg hsame, cnt_cons_ne p (ps.take m') _ _
              (fun hh => hsame ⟨hh.1.symm, hh.2.symm⟩)]

/-! ### Counting pushes along a schedule prefix -/

theorem cnt_take_succ_of_get {α : Type} (ps : List (PushOp α)) (m : Nat)
    (hm : m < ps.length) :
    cnt (ps.take (m + 1)) (ps.get ⟨m, hm⟩).tid (ps.get ⟨m, hm⟩).key =
      cnt (ps.take m) (ps.get ⟨m, hm⟩).tid (ps.get ⟨m, hm⟩).key + 1 := by
  rw [List.take_succ, cnt_append]
  have hg : ps[m]? = some (ps.get ⟨m, hm⟩) := by
    rw [List.getElem?_eq_getElem hm]
    rfl
  rw [hg]
  have h1 : cnt [ps.get ⟨m, hm⟩] (ps.get ⟨m, hm⟩).tid (ps.get ⟨m, hm⟩).key = 1 := by
    simp [cnt, List.filter_cons]
  show _ + cnt [ps.get ⟨m, hm⟩] _ _ = _
  rw [h1]

theorem cnt_take_mono {α : Type} (ps : List (PushOp α)) (t k m m' : Nat)
    (h : m ≤ m') : cnt (ps.take m) t k ≤ cnt (ps.take m') t k := by
  conv_rhs => rw [← List.take_append_drop m (ps.take m')]
  rw [cnt_append, List.take_take, Nat.min_eq_left h]
  omega

/-- Write-index trace for a fresh build: the `m`-th push of the schedule
writes at its thread's block start plus the number of its prior
(thread, key) pushes. -/
theorem fresh_trace {α : Type} (rows : List (List Nat)) (d : α)
    (ps : List (PushOp α))
    (H1 : ∀ p ∈ ps, p.tid < rows.length ∧ p.key < (rows.getD p.tid []).length)
    (m : Nat) (hm : m < ps.length) :
    (pushTrace (initStorage ⟨[], [], rows⟩ d) ps).getD m 0 =
      startF rows (ps.get ⟨m, hm⟩).tid (ps.get ⟨m, hm⟩).key +
        cnt (ps.take m) (ps.get ⟨m, hm⟩).tid (ps.get ⟨m, hm⟩).key := by
  have h := pushTrace_spec (startF rows) (fun t => (rows.getD t []).length)
    rows.length ps (initStorage ⟨[], [], rows⟩ d) (fun _ _ => 0)
    (initStorage_threadRptr_length _ d)
    (fun t _ => fresh_row_length rows d t)
    (fun t k _ hk => by
      show ((initStorage ⟨[], [], rows⟩ d).threadRptr.getD t []).getD k 0 =
        startF rows t k + 0
      rw [fresh_cursor rows d t k hk]
      omega)
    H1 m hm
  rw [h]
  omega

/-- Strictness: at the moment of any push, the pushes already done for the
same (thread, key) number fewer than the budget. -/
theorem cnt_take_lt_bud {α : Type} (rows : List (List Nat))
    (ps : List (PushOp α))
    (hcnt : ∀ t k, cnt ps t k = bud rows t k) (m : Nat) (hm : m < ps.length) :
    cnt (ps.take m) (ps.get ⟨m, hm⟩).tid (ps.get ⟨m, hm⟩).key <
      bud rows (ps.get ⟨m, hm⟩).tid (ps.get ⟨m, hm⟩).key := by
  have h1 := cnt_take_succ_of_get ps m hm
  have h2 := cnt_take_mono ps (ps.get ⟨m, hm⟩).tid (ps.get ⟨m, hm⟩).key
    (m + 1) ps.length (by omega)
  rw [List.take_length] at h2
  rw [hcnt] at h2
  omega

/-! ### `AddBudget` bookkeeping -/

theorem grown_getD (trptr : List Nat) (key k : Nat) :
    (if trptr.length < key + 1
        then trptr ++ List.replicate (key + 1 - trptr.length) 0
        else trptr).getD k 0 = trptr.getD k 0 := by
  split
  · by_cases hk : k < trptr.length
    · exact List.getD_append _ _ _ _ hk
    · rw [List.getD_eq_default trptr _ (by omega)]
      by_cases hk2 : k < key + 1
      · rw [List.getD_append_right _ _ _ _ (by omega),
          List.getD_eq_getElem _ _ (by simp; omega)]
        simp
      · rw [List.getD_eq_default _ _ (by simp; omega)]
  · rfl

theorem addBudget_length (rows : List (List Nat)) (key tid nelem : Nat) :
    (addBudget rows key tid nelem).length = rows.length := by
  simp [addBudget]

theorem addBudget_row_length (rows : List (List Nat)) (key tid nelem : Nat)
    (h : tid < rows.length) :
    ((addBudget rows key tid nelem).getD tid []).length =
      max (rows.getD tid []).length (key + 1) := by
  rw [addBudget]
  rw [getD_set_self _ _ _ _ h, List.length_set]
  split
  · simp
    omega
  · omega

theorem addBudget_bud_self (rows : List (List Nat)) (key tid nelem : Nat)
    (h : tid < rows.length) :
    bud (addBudget rows key tid nelem) tid key = bud rows tid key + nelem := by
  rw [bud, addBudget]
  rw [getD_set_self _ _ _ _ h]
  have hg : key < (if (rows.getD tid []).length < key + 1
      then rows.getD tid [] ++ List.replicate (key + 1 - (rows.getD tid []).length) 0
      else rows.getD tid []).length := by
    split
    · rw [List.length_append, List.length_replicate]
      omega
    · omega
  rw [getD_set_self _ _ _ _ hg, grown_getD, bud]

theorem addBudget_bud_other (rows : List (List Nat)) (key tid nelem t k : Nat)
    (hne : ¬(t = tid ∧ k = key)) :
    bud (addBudget rows key tid nelem) t k = bud rows t k := by
  rw [bud, addBudget]
  by_cases ht : t = tid
  · subst ht
    by_cases hlen : t < rows.length
    · rw [getD_set_self _ _ _ _ hlen,
        getD_set_ne _ _ _ _ _ (fun hh => hne ⟨rfl, hh.symm⟩), grown_getD, bud]
    · rw [List.set_eq_of_length_le (by omega), bud]
  · rw [getD_set_ne _ _ _ _ _ (fun hh => ht hh.symm), bud]

theorem addBudget_other_row (rows : List (List Nat)) (key tid nelem t : Nat)
    (hne : t ≠ tid) :
    (addBudget rows key tid nelem).getD t [] = rows.getD t [] := by
  rw [addBudget]
  exact getD_set_ne _ _ _ _ _ (fun hh => hne hh.symm)

theorem addBudgetAll_length (calls : List (Nat × Nat × Nat)) :
    ∀ rows, (addBudgetAll rows calls).length = rows.length := by
  induction calls with
  | nil => intro rows; rfl
  | cons c cs ih =>
      intro rows
      show (addBudgetAll (addBudget rows c.1 c.2.1 c.2.2) cs).length = _
      rw [ih, addBudget_length]

theorem addBudgetAll_bud (calls : List (Nat × Nat × Nat)) :
    ∀ rows, (∀ c ∈ calls, c.2.1 < rows.length) → ∀ t k,
      bud (addBudgetAll rows calls) t k = bud rows t k +
        ((calls.filter (fun c => c.1 == k && c.2.1 == t)).map
          (fun c => c.2.2)).sum := by
  induction calls with
  | nil => intro rows _ t k; simp [addBudgetAll]
  | cons c cs ih =>
      intro rows hc t k
      have hstep : addBudgetAll rows (c :: cs) =
          addBudgetAll (addBudget rows c.1 c.2.1 c.2.2) cs := rfl
      have hc' : ∀ c' ∈ cs, c'.2.1 < (addBudget rows c.1 c.2.1 c.2.2).length := by
        intro c' hc2
        rw [addBudget_length]
        exact hc c' (List.mem_cons_of_mem c hc2)
      rw [hstep, ih _ hc' t k]
      by_cases hmatch : c.1 = k ∧ c.2.1 = t
      · obtain ⟨hk1, ht1⟩ := hmatch
        subst hk1
        subst ht1
        rw [addBudget_bud_self rows c.1 c.2.1 c.2.2
          (hc c (List.mem_cons_self c cs))]
        have hfil : (c :: cs).filter (fun c' => c'.1 == c.1 && c'.2.1 == c.2.1) =
            c :: cs.filter (fun c' => c'.1 == c.1 && c'.2.1 == c.2.1) := by
          simp [List.filter_cons]
        rw [hfil]
        simp only [List.map_cons, List.sum_cons]
        omega
      · rw [addBudget_bud_other rows c.1 c.2.1 c.2.2 t k
          (fun hh => hmatch ⟨hh.2.symm, hh.1.symm⟩)]
        have hfil : (c :: cs).filter (fun c' => c'.1 == k && c'.2.1 == t) =
            cs.filter (fun c' => c'.1 == k && c'.2.1 == t) := by
          rw [List.filter_cons]
          have hb : (c.1 == k && c.2.1 == t) = false := by
            rcases Decidable.em (c.1 = k) with h1 | h1
            · rcases Decidable.em (c.2.1 = t) with h2 | h2
              · exact absurd ⟨h1, h2⟩ hmatch
              · simp [h2]
            · simp [h1]
          simp [hb]
        rw [hfil]

/-! ### Monotonicity and frame properties of `InitStorage` -/

theorem isMono_iff : ∀ l : List Nat,
    isMono l = true ↔ ∀ j, j + 1 < l.length → l.getD j 0 ≤ l.getD (j + 1) 0
  | [] => by simp [isMono]
  | [a] => by simp [isMono]
  | a :: b :: rest => by
      rw [isMono, Bool.and_eq_true, decide_eq_true_iff, isMono_iff (b :: rest)]
      constructor
      · rintro ⟨hab, h⟩ j hj
        cases j with
        | zero => simpa using hab
        | succ s =>
            have := h s (by simp only [List.length_cons] at hj ⊢; omega)
            simpa using this
      · intro h
        refine ⟨by simpa using h 0 (by simp only [List.length_cons]; omega),
          fun j hj => ?_⟩
        have := h (j + 1) (by simp only [List.length_cons] at hj ⊢; omega)
        simpa using this

theorem rptrExt_mono {α : Type} (b : Builder α)
    (h : ∀ j, j + 1 < b.rptr.length → b.rptr.getD j 0 ≤ b.rptr.getD (j + 1) 0) :
    ∀ j, j + 1 < (rptrExt b).length →
      (rptrExt b).getD j 0 ≤ (rptrExt b).getD (j + 1) 0 := by
  intro j hj
  by_cases h1 : j + 1 < b.rptr.length
  · rw [rptrExt_getD_lt _ _ (by omega), rptrExt_getD_lt _ _ h1]
    exact h j h1
  · by_cases h2 : j < b.rptr.length
    · rw [rptrExt_getD_lt _ _ h2, rptrExt_getD_ge _ _ (by omega) (by omega),
        fillOf, getLast_getD]
      have hjeq : j = b.rptr.length - 1 := by omega
      rw [hjeq]
    · rw [rptrExt_getD_ge _ _ (by omega) (by omega),
        rptrExt_getD_ge _ _ (by omega) (by omega)]

theorem initStorage_rptr_getD_zero_ext {α : Type} (b : Builder α) (d : α) :
    (initStorage b d).rptr.getD 0 0 = (rptrExt b).getD 0 0 := by
  rw [initStorage_eq]
  show ((loopRes b).1).getD 0 0 = _
  rw [loopRes, storageLoop_rptr_low _ _ _ _ _ _ 0 (le_refl 0)]

theorem initStorage_mono {α : Type} (b : Builder α) (d : α)
    (h : isMono b.rptr = true) : isMono (initStorage b d).rptr = true := by
  rw [isMono_iff] at h ⊢
  intro j hj
  rw [initStorage_rptr_length] at hj
  have hmono := rptrExt_mono b h
  rcases Nat.eq_zero_or_pos j with h0 | h0
  · subst h0
    rw [initStorage_rptr_getD_zero_ext,
      initStorage_rptr_getD_win _ _ _ (by omega) (by omega)]
    have := hmono 0 (by omega)
    omega
  · rw [initStorage_rptr_getD_win _ _ _ (by omega) (by omega),
      initStorage_rptr_getD_win _ _ _ (by omega) (by omega)]
    have h1 := hmono j hj
    have h2 := sumFrom_mono b.threadRptr 0 (show j ≤ j + 1 by omega)
    omega

theorem initStorage_back_ge {α : Type} (b : Builder α) (d : α) :
    b.rptr.getLast?.getD 0 ≤ (initStorage b d).rptr.getLast?.getD 0 := by
  have hbase := rptrExt_base b
  rw [getLast_getD ((initStorage b d).rptr), initStorage_rptr_length]
  rcases Nat.eq_zero_or_pos (rptrExt b).length with hL | hL
  · have hr0 : b.rptr.length = 0 := by
      have := resizeLen_le b.threadRptr b.rptr.length
      rw [rptrExt_length] at hL
      omega
    rw [getLast_getD, hr0, List.getD_eq_default _ _ (by omega)]
    omega
  · rcases Nat.lt_or_ge (rptrExt b).length 2 with hL2 | hL2
    · have h1 : (rptrExt b).length - 1 = 0 := by omega
      rw [h1, initStorage_rptr_getD_zero_ext]
      have h2 : (rptrExt b).getD 0 0 = fillOf b := by
        rw [← rptrExt_base b, getLast_getD]
        congr 1
        omega
      rw [h2, fillOf]
    · rw [initStorage_rptr_getD_win _ _ _ (by omega) (by omega)]
      have h2 : (rptrExt b).getD ((rptrExt b).length - 1) 0 = fillOf b := by
        rw [← rptrExt_base b, getLast_getD]
      rw [h2, fillOf]
      omega

theorem getD_listResize_lt {α : Type} (l : List α) (n : Nat) (f : α) (i : Nat)
    (hi : i < l.length) (hn : l.length ≤ n) :
    (listResize l n f).getD i f = l.getD i f := by
  rw [listResize_eq_append _ _ _ hn]
  exact List.getD_append _ _ _ _ hi

theorem initStorage_data_frame {α : Type} (b : Builder α) (d : α)
    (hback : b.rptr.getLast?.getD 0 = b.data.length) :
    b.data.length ≤ (initStorage b d).data.length ∧
    ∀ i, i < b.data.length →
      (initStorage b d).data.getD i d = b.data.getD i d := by
  have hge := initStorage_back_ge b d
  rw [hback] at hge
  have hlen := initStorage_data_length b d
  constructor
  · omega
  · intro i hi
    show (listResize b.data ((loopRes b).1.getLast?.getD 0) d).getD i d =
      b.data.getD i d
    exact getD_listResize_lt _ _ _ _ hi hge

/-! ### Keys with zero total budget -/

theorem rowSum_zero_of_bud (rows : List (List Nat)) (k : Nat)
    (hz : ∀ t, t < rows.length → bud rows t k = 0) : rowSum rows k = 0 := by
  rw [rowSum]
  apply List.sum_eq_zero
  intro x hx
  obtain ⟨row, hrow, rfl⟩ := List.mem_map.mp hx
  obtain ⟨i, hi, rfl⟩ := List.getElem_of_mem hrow
  have hb := hz i hi
  rw [bud, List.getD_eq_getElem _ _ hi] at hb
  exact hb

theorem initStorage_zero_segment {α : Type} (rows : List (List Nat)) (d : α)
    (k : Nat) (hz : ∀ t, t < rows.length → bud rows t k = 0)
    (hk : k + 1 < (initStorage (⟨[], [], rows⟩ : Builder α) d).rptr.length) :
    (initStorage (⟨[], [], rows⟩ : Builder α) d).rptr.getD k 0 =
      (initStorage (⟨[], [], rows⟩ : Builder α) d).rptr.getD (k + 1) 0 := by
  rw [initStorage_rptr_length] at hk
  have hk' : k + 1 < resizeLen 0 rows := by
    rw [fresh_rptrExt] at hk
    simpa using hk
  rw [fresh_rptr_getD rows d k (by omega), fresh_rptr_getD rows d (k + 1) hk',
    sumFrom_succ_back, Nat.zero_add, rowSum_zero_of_bud rows k hz]
  omega

/-! ### Claim theorems -/

/-- Claim C1: for every fresh build (empty `ptr` and `data`) whose phases
run in order, with any interleaved push schedule whose per-(thread, key)
multiplicities exactly match the declared budgets (and thread ids within
the initialised range), every key's segment `data[ptr[k] : ptr[k+1]]`
holds exactly the multiset of values pushed with that key, across all
threads, whatever the input order.  The counter table `rows` is the
arbitrary outcome of phases 1–2. -/
theorem C1_roundtrip {α : Type} (rows : List (List Nat)) (d : α)
    (ps : List (PushOp α))
    (H1 : ∀ p ∈ ps, p.tid < rows.length ∧ p.key < (rows.getD p.tid []).length)
    (H2 : ∀ t, t < rows.length → ∀ k, k < (rows.getD t []).length →
      bud rows t k = cnt ps t k) (k : Nat) :
    (↑(segment (pushAll (initStorage ⟨[], [], rows⟩ d) ps) k) : Multiset α) =
      (↑(valsKey ps k) : Multiset α) := by
  rw [Multiset.coe_eq_coe, segment_flatten rows d ps H1 H2 k]
  exact (valsKey_perm k ps rows.length (fun p hp => (H1 p hp).1)).symm

/-- Witness for C1 at the spec's end-to-end example, key 1. -/
theorem C1_roundtrip_witness :
    (↑(segment exampleBuild 1) : Multiset Nat) =
      (↑(valsKey examplePushes 1) : Multiset Nat) :=
  C1_roundtrip exampleRows 0 examplePushes (by decide) (by decide) 1

/-- Claim C2 counterexample: in the spec's own append scenario the second
`InitStorage` leaves `ptr[0] = 0`, which differs from the prior build's
final `ptr.back() = 2`; so "`ptr[0]` equals the prior build's final
`ptr.back()` in append mode" is false on the code. -/
theorem C2_counterexample :
    ¬((appendStorage2 1 2).rptr.getD 0 0 =
      (appendScenario1 1 2).rptr.getLast?.getD 0) := by decide

/-- Claim C2 (amended): after every `InitStorage` on a monotone offset
array, `ptr` is monotonically non-decreasing, `ptr.back()` equals the
length of `data`, and `ptr[0]` is unchanged — `0` for a fresh build (empty
`ptr` reads as `0`), and in append mode the prior build's `ptr[0]`, not
its `ptr.back()`. -/
theorem C2_segment_coverage {α : Type} (b : Builder α) (d : α)
    (h : isMono b.rptr = true) :
    isMono (initStorage b d).rptr = true ∧
    (initStorage b d).rptr.getD 0 0 = b.rptr.getD 0 0 ∧
    (initStorage b d).rptr.getLast?.getD 0 = (initStorage b d).data.length :=
  ⟨initStorage_mono b d h, initStorage_rptr_getD_zero b d,
    (initStorage_data_length b d).symm⟩

/-- Witness for C2 (amended) at the append scenario's second build. -/
theorem C2_segment_coverage_witness :
    isMono (appendStorage2 1 2).rptr = true ∧
    (appendStorage2 1 2).rptr.getD 0 0 = (appendScenario1 1 2).rptr.getD 0 0 ∧
    (appendStorage2 1 2).rptr.getLast?.getD 0 = (appendStorage2 1 2).data.length :=
  C2_segment_coverage
    ⟨(appendScenario1 1 2).rptr, (appendScenario1 1 2).data,
      addBudget (initBudget 1 1) 0 0 1⟩ 0 (by decide)

/-- Claim C7 counterexample: in the spec's append scenario (first build
`a = 1, b = 2`, appended push `c = 3`) the resulting offset array is
`[0, 2, 3]`, not the claimed `[0, 2, 2]`. -/
theorem C7_counterexample : (appendScenario2 1 2 3).rptr ≠ [0, 2, 2] := by
  decide

/-- Claim C7 (amended): the first build yields `ptr = [0,1,2]`,
`data = [a,b]`; the second (append) build yields `ptr = [0,2,3]` (the old
offsets of keys ≥ 1 are shifted by the new total), `data = [a,b,c]`, and
key 0's segment `data[ptr[0]:ptr[1]] = data[0:2]` is `[a,b]` — the
appended value `c` lands at index 2, so appending to a key that already
holds data does not regroup it. -/
theorem C7_append_mode (a b c : Nat) :
    (appendScenario1 a b).rptr = [0, 1, 2] ∧
    (appendScenario1 a b).data = [a, b] ∧
    (appendScenario2 a b c).rptr = [0, 2, 3] ∧
    (appendScenario2 a b c).data = [a, b, c] ∧
    segment (appendScenario2 a b c) 0 = [a, b] :=
  ⟨rfl, rfl, rfl, rfl, rfl⟩

/-- Witness for C7 (amended) at `a = 1, b = 2, c = 3`. -/
theorem C7_append_mode_witness :
    (appendScenario2 1 2 3).rptr = [0, 2, 3] ∧
    segment (appendScenario2 1 2 3) 0 = [1, 2] :=
  ⟨(C7_append_mode 1 2 3).2.2.1, (C7_append_mode 1 2 3).2.2.2.2⟩

/-- Claim C10: `InitStorage` never shrinks or moves previously stored
data: in append mode, on arrays with `ptr.back() = len(data)`, the new
data length is at least the old one and every previously stored element
keeps its value and position. -/
theorem C10_no_move {α : Type} (b : Builder α) (d : α)
    (hback : b.rptr.getLast?.getD 0 = b.data.length) :
    b.data.length ≤ (initStorage b d).data.length ∧
    ∀ i, i < b.data.length →
      (initStorage b d).data.getD i d = b.data.getD i d :=
  initStorage_data_frame b d hback

/-- Witness for C10 on a two-element append state. -/
theorem C10_no_move_witness :
    ([5, 6] : List Nat).length ≤
      (initStorage (⟨[0, 1, 2], [5, 6], [[1]]⟩ : Builder Nat) 0).data.length ∧
    (initStorage (⟨[0, 1, 2], [5, 6], [[1]]⟩ : Builder Nat) 0).data.getD 1 0 =
      ([5, 6] : List Nat).getD 1 0 := by
  have h := C10_no_move (⟨[0, 1, 2], [5, 6], [[1]]⟩ : Builder Nat) 0 (by decide)
  exact ⟨h.1, h.2 1 (by decide)⟩

/-- Claim C3: `AddBudget(key, threadid, nelem)` with `threadid < nthread`
grows that thread's row to width `key + 1` when needed (new cells reading
zero, i.e. all other budgets unchanged), then increases the counter at
(threadid, key) by `nelem`; over any sequence of calls, in any order, each
counter accumulates the sum of the `nelem`s of its own calls. -/
theorem C3_add_budget (rows : List (List Nat)) (key tid nelem : Nat)
    (h : tid < rows.length) :
    ((addBudget rows key tid nelem).length = rows.length ∧
      ((addBudget rows key tid nelem).getD tid []).length =
        max (rows.getD tid []).length (key + 1) ∧
      bud (addBudget rows key tid nelem) tid key = bud rows tid key + nelem ∧
      (∀ t k, ¬(t = tid ∧ k = key) →
        bud (addBudget rows key tid nelem) t k = bud rows t k)) ∧
    (∀ calls : List (Nat × Nat × Nat), (∀ c ∈ calls, c.2.1 < rows.length) →
      ∀ t k, bud (addBudgetAll rows calls) t k = bud rows t k +
        ((calls.filter (fun c => c.1 == k && c.2.1 == t)).map
          (fun c => c.2.2)).sum) := by
  refine ⟨⟨addBudget_length rows key tid nelem,
    addBudget_row_length rows key tid nelem h,
    addBudget_bud_self rows key tid nelem h,
    fun t k hne => addBudget_bud_other rows key tid nelem t k hne⟩,
    fun calls hc t k => addBudgetAll_bud calls rows hc t k⟩

/-- Witness for C3: a call growing row 0 from width 1 to width 3, and two
accumulating calls on the same cell. -/
theorem C3_add_budget_witness :
    bud (addBudget [[9], [5]] 2 0 3) 0 2 = bud [[9], [5]] 0 2 + 3 ∧
    bud (addBudgetAll [[9], [5]] [(2, 0, 3), (2, 0, 4)]) 0 2 =
      bud [[9], [5]] 0 2 +
        (((([(2, 0, 3), (2, 0, 4)] : List (Nat × Nat × Nat)).filter
          (fun c => c.1 == 2 && c.2.1 == 0)).map (fun c => c.2.2)).sum) :=
  ⟨(C3_add_budget [[9], [5]] 2 0 3 (by decide)).1.2.2.1,
    (C3_add_budget [[9], [5]] 2 0 3 (by decide)).2
      [(2, 0, 3), (2, 0, 4)] (by decide) 0 2⟩

/-- Claim C4: `AddBudget` with `nelem = 0` is a legal no-op on the counters,
and a key for which every thread declared only zero budget (or none) gets
an empty segment `ptr[k] = ptr[k+1]` from `InitStorage` (for a fresh
build, with the key inside the materialised offset range), not an error. -/
theorem C4_zero_budget {α : Type} (rows : List (List Nat)) (d : α)
    (key tid : Nat) (h : tid < rows.length) (k : Nat)
    (hz : ∀ t, t < rows.length → bud rows t k = 0)
    (hk : k + 1 < (initStorage (⟨[], [], rows⟩ : Builder α) d).rptr.length) :
    (∀ t k', bud (addBudget rows key tid 0) t k' = bud rows t k') ∧
    (initStorage (⟨[], [], rows⟩ : Builder α) d).rptr.getD k 0 =
      (initStorage (⟨[], [], rows⟩ : Builder α) d).rptr.getD (k + 1) 0 := by
  constructor
  · intro t k'
    by_cases hsame : t = tid ∧ k' = key
    · obtain ⟨h1', h2'⟩ := hsame
      rw [h1', h2', addBudget_bud_self rows key tid 0 h]
      omega
    · exact addBudget_bud_other rows key tid 0 t k' hsame
  · exact initStorage_zero_segment rows d k hz hk

/-- Witness for C4: key 1 has zero budget in both threads; its segment in
the materialised offsets is empty. -/
theorem C4_zero_budget_witness :
    bud (addBudget [[1, 0], [0, 0]] 0 0 0) 1 1 = bud [[1, 0], [0, 0]] 1 1 ∧
    (initStorage (⟨[], [], [[1, 0], [0, 0]]⟩ : Builder Nat) 0).rptr.getD 1 0 =
      (initStorage (⟨[], [], [[1, 0], [0, 0]]⟩ : Builder Nat) 0).rptr.getD 2 0 := by
  have h := C4_zero_budget [[1, 0], [0, 0]] (0 : Nat) 0 0 (by decide) 1
    (by decide) (by decide)
  exact ⟨h.1 1 1, h.2⟩

/-- Position of a segment offset inside the cumulative per-thread budget
sums: any offset below the key's total budget falls in exactly one
thread's block. -/
theorem exists_partSum_block (k : Nat) :
    ∀ (rows : List (List Nat)) (x : Nat), x < rowSum rows k →
      ∃ t', t' < rows.length ∧ partSum rows k t' ≤ x ∧
        x < partSum rows k t' + bud rows t' k := by
  intro rows
  induction rows with
  | nil =>
      intro x hx
      rw [rowSum] at hx
      simp at hx
  | cons row rest ih =>
      intro x hx
      by_cases h0 : x < row.getD k 0
      · refine ⟨0, by simp, by rw [partSum_zero]; omega, ?_⟩
        rw [partSum_zero, bud, List.getD_cons_zero]
        omega
      · rw [rowSum_cons] at hx
        obtain ⟨t'', ht1, ht2, ht3⟩ := ih (x - row.getD k 0) (by omega)
        refine ⟨t'' + 1, by simp; omega, ?_, ?_⟩
        · rw [partSum_cons_succ]
          omega
        · rw [partSum_cons_succ]
          have hb : bud (row :: rest) (t'' + 1) k = bud rest t'' k := by
            rw [bud, bud, List.getD_cons_succ]
          rw [hb]
          omega

/-- Claim C5: after phase 3 on a fresh build, every (thread, key) pair with
a declared budget owns a contiguous sub-range `[startF t k,
startF t k + bud t k)` of `data[ptr[k] : ptr[k+1]]` sized exactly to its
budget (the cursor stored in the thread table is its start); ranges of
distinct threads on the same key are disjoint, and their union covers the
key's segment with no gaps. -/
theorem C5_slot_uniqueness {α : Type} (rows : List (List Nat)) (d : α)
    (t k : Nat) (ht : t < rows.length) (hk : k < (rows.getD t []).length) :
    ((initStorage (⟨[], [], rows⟩ : Builder α) d).threadRptr.getD t []).getD k 0 =
      startF rows t k ∧
    (initStorage (⟨[], [], rows⟩ : Builder α) d).rptr.getD k 0 ≤
      startF rows t k ∧
    startF rows t k + bud rows t k ≤
      (initStorage (⟨[], [], rows⟩ : Builder α) d).rptr.getD (k + 1) 0 ∧
    (∀ t', t' < rows.length → t' ≠ t → k < (rows.getD t' []).length →
      startF rows t k + bud rows t k ≤ startF rows t' k ∨
      startF rows t' k + bud rows t' k ≤ startF rows t k) ∧
    (∀ i, (initStorage (⟨[], [], rows⟩ : Builder α) d).rptr.getD k 0 ≤ i →
      i < (initStorage (⟨[], [], rows⟩ : Builder α) d).rptr.getD (k + 1) 0 →
      ∃ t', t' < rows.length ∧ k < (rows.getD t' []).length ∧
        startF rows t' k ≤ i ∧ i < startF rows t' k + bud rows t' k) := by
  have hmem : rows.getD t [] ∈ rows := by
    rw [List.getD_eq_getElem _ _ ht]
    exact List.getElem_mem ht
  have hkL : k + 1 < resizeLen 0 rows := by
    have := lt_resizeLen_of_mem rows 0 _ hmem
    omega
  have hpk : (initStorage (⟨[], [], rows⟩ : Builder α) d).rptr.getD k 0 =
      sumFrom rows 0 k := fresh_rptr_getD rows d k (by omega)
  have hpk1 : (initStorage (⟨[], [], rows⟩ : Builder α) d).rptr.getD (k + 1) 0 =
      sumFrom rows 0 (k + 1) := fresh_rptr_getD rows d (k + 1) hkL
  refine ⟨fresh_cursor rows d t k hk, ?_, ?_, ?_, ?_⟩
  · rw [hpk, startF]
    omega
  · rw [hpk1]
    exact startF_bud_le_next rows t k ht
  · intro t' ht' htne _
    rcases Nat.lt_trichotomy t t' with h | h | h
    · left
      exact startF_mono_lex rows t k t' k ht (Or.inr ⟨rfl, h⟩)
    · exact absurd h.symm htne
    · right
      exact startF_mono_lex rows t' k t k ht' (Or.inr ⟨rfl, h⟩)
  · intro i hi1 hi2
    rw [hpk] at hi1
    rw [hpk1] at hi2
    have hsum : sumFrom rows 0 (k + 1) = sumFrom rows 0 k + rowSum rows k := by
      have := sumFrom_succ_back rows 0 k
      rw [Nat.zero_add] at this
      exact this
    obtain ⟨t', ht1, ht2, ht3⟩ :=
      exists_partSum_block k rows (i - sumFrom rows 0 k) (by omega)
    refine ⟨t', ht1, bud_pos_lt rows t' k (by omega), ?_, ?_⟩
    · rw [startF]
      omega
    · rw [startF]
      omega

/-- Witness for C5 at the spec's example, thread 1, key 1. -/
theorem C5_slot_uniqueness_witness :
    ((initStorage (⟨[], [], exampleRows⟩ : Builder Nat) 0).threadRptr.getD 1
      []).getD 1 0 = startF exampleRows 1 1 ∧
    (initStorage (⟨[], [], exampleRows⟩ : Builder Nat) 0).rptr.getD 1 0 ≤
      startF exampleRows 1 1 := by
  have h := C5_slot_uniqueness exampleRows (0 : Nat) 1 1 (by decide) (by decide)
  exact ⟨h.1, h.2.1⟩

/-- Claim C6: in a fresh build with matched budgets, each key's segment is
the concatenation of the contributing threads' value lists in increasing
thread-id order, deterministically; in particular, the spec's two-thread
example yields `ptr = [0,1,3]`, `data = [11,10,20]`, so `data[0] = 11` and
`data[1:3] = [10, 20]` in thread order. -/
theorem C6_thread_order {α : Type} (rows : List (List Nat)) (d : α)
    (ps : List (PushOp α))
    (H1 : ∀ p ∈ ps, p.tid < rows.length ∧ p.key < (rows.getD p.tid []).length)
    (H2 : ∀ t, t < rows.length → ∀ k, k < (rows.getD t []).length →
      bud rows t k = cnt ps t k) :
    (∀ k, segment (pushAll (initStorage ⟨[], [], rows⟩ d) ps) k =
      List.flatten ((List.range rows.length).map (fun t => valsOf ps t k))) ∧
    (exampleBuild.rptr = [0, 1, 3] ∧ exampleBuild.data = [11, 10, 20] ∧
      segment exampleBuild 0 = [11] ∧ segment exampleBuild 1 = [10, 20]) :=
  ⟨fun k => segment_flatten rows d ps H1 H2 k, by decide⟩

/-- Witness for C6 at the spec's example, key 1. -/
theorem C6_thread_order_witness :
    segment exampleBuild 1 =
      List.flatten ((List.range exampleRows.length).map
        (fun t => valsOf examplePushes t 1)) :=
  (C6_thread_order exampleRows 0 examplePushes (by decide) (by decide)).1 1

/-- Claim C8: for pushes of the same thread and key, the `data` indices
written are strictly increasing in schedule order, so same-thread same-key
values keep their relative push order. -/
theorem C8_intra_thread_order {α : Type} (rows : List (List Nat)) (d : α)
    (ps : List (PushOp α))
    (H1 : ∀ p ∈ ps, p.tid < rows.length ∧ p.key < (rows.getD p.tid []).length)
    (m m' : Nat) (hm' : m' < ps.length) (hlt : m < m')
    (hts : (ps.get ⟨m, Nat.lt_trans hlt hm'⟩).tid = (ps.get ⟨m', hm'⟩).tid)
    (hks : (ps.get ⟨m, Nat.lt_trans hlt hm'⟩).key = (ps.get ⟨m', hm'⟩).key) :
    (pushTrace (initStorage ⟨[], [], rows⟩ d) ps).getD m 0 <
      (pushTrace (initStorage ⟨[], [], rows⟩ d) ps).getD m' 0 := by
  have hm : m < ps.length := Nat.lt_trans hlt hm'
  rw [fresh_trace rows d ps H1 m hm, fresh_trace rows d ps H1 m' hm', hts, hks]
  have h1 := cnt_take_succ_of_get ps m hm
  rw [hts, hks] at h1
  have h2 := cnt_take_mono ps (ps.get ⟨m', hm'⟩).tid (ps.get ⟨m', hm'⟩).key
    (m + 1) m' (by omega)
  omega

/-- Witness for C8: one thread pushes twice for key 0; the first write
index (0) is below the second (1). -/
theorem C8_intra_thread_order_witness :
    (pushTrace (initStorage (⟨[], [], [[2]]⟩ : Builder Nat) 0)
      [⟨0, 0, 7⟩, ⟨0, 0, 9⟩]).getD 0 0 <
    (pushTrace (initStorage (⟨[], [], [[2]]⟩ : Builder Nat) 0)
      [⟨0, 0, 7⟩, ⟨0, 0, 9⟩]).getD 1 0 :=
  C8_intra_thread_order [[2]] 0 [⟨0, 0, 7⟩, ⟨0, 0, 9⟩] (by decide)
    0 1 (by decide) (by decide) rfl rfl

/-- Claim C9: under the budget-conservation precondition on a fresh build,
every array access of `Push` is in bounds: each pushed key is a valid
index into its thread's cursor row, every write index is strictly below
`data`'s length, and no two pushes (in particular no two threads) ever
write the same `data` cell. -/
theorem C9_push_safety {α : Type} (rows : List (List Nat)) (d : α)
    (ps : List (PushOp α))
    (H1 : ∀ p ∈ ps, p.tid < rows.length ∧ p.key < (rows.getD p.tid []).length)
    (H2 : ∀ t, t < rows.length → ∀ k, k < (rows.getD t []).length →
      bud rows t k = cnt ps t k) :
    (∀ m (hm : m < ps.length),
      (ps.get ⟨m, hm⟩).key <
        ((initStorage (⟨[], [], rows⟩ : Builder α) d).threadRptr.getD
          (ps.get ⟨m, hm⟩).tid []).length ∧
      (pushTrace (initStorage ⟨[], [], rows⟩ d) ps).getD m 0 <
        (initStorage (⟨[], [], rows⟩ : Builder α) d).data.length) ∧
    (∀ m m' (hm : m < ps.length) (hm' : m' < ps.length), m ≠ m' →
      (pushTrace (initStorage ⟨[], [], rows⟩ d) ps).getD m 0 ≠
        (pushTrace (initStorage ⟨[], [], rows⟩ d) ps).getD m' 0) := by
  have hcnt := cnt_eq_bud rows ps H1 H2
  have hbound : ∀ m (hm : m < ps.length),
      (pushTrace (initStorage ⟨[], [], rows⟩ d) ps).getD m 0 <
        sumFrom rows 0 (resizeLen 0 rows - 1) ∧
      startF rows (ps.get ⟨m, hm⟩).tid (ps.get ⟨m, hm⟩).key ≤
        (pushTrace (initStorage ⟨[], [], rows⟩ d) ps).getD m 0 ∧
      (pushTrace (initStorage ⟨[], [], rows⟩ d) ps).getD m 0 <
        startF rows (ps.get ⟨m, hm⟩).tid (ps.get ⟨m, hm⟩).key +
          bud rows (ps.get ⟨m, hm⟩).tid (ps.get ⟨m, hm⟩).key := by
    intro m hm
    obtain ⟨hptm, hpkm⟩ := H1 _ (List.get_mem ps m hm)
    have htr := fresh_trace rows d ps H1 m hm
    have hlt := cnt_take_lt_bud rows ps hcnt m hm
    have hnext := startF_bud_le_next rows (ps.get ⟨m, hm⟩).tid
      (ps.get ⟨m, hm⟩).key hptm
    have hmem : rows.getD (ps.get ⟨m, hm⟩).tid [] ∈ rows := by
      rw [List.getD_eq_getElem _ _ hptm]
      exact List.getElem_mem hptm
    have hrl := lt_resizeLen_of_mem rows 0 _ hmem
    have hmono := sumFrom_mono rows 0
      (show (ps.get ⟨m, hm⟩).key + 1 ≤ resizeLen 0 rows - 1 by omega)
    refine ⟨by omega, by omega, by omega⟩
  constructor
  · intro m hm
    obtain ⟨hb1, _, _⟩ := hbound m hm
    obtain ⟨hptm, hpkm⟩ := H1 _ (List.get_mem ps m hm)
    constructor
    · rw [fresh_row_length]
      exact hpkm
    · rw [fresh_data_length]
      exact hb1
  · have hstrict : ∀ m m' (hm : m < ps.length) (hm' : m' < ps.length),
        m < m' →
        (pushTrace (initStorage ⟨[], [], rows⟩ d) ps).getD m 0 ≠
          (pushTrace (initStorage ⟨[], [], rows⟩ d) ps).getD m' 0 := by
      intro m m' hm hm' hlt2
      obtain ⟨_, hlo, hhi⟩ := hbound m hm
      obtain ⟨_, hlo', hhi'⟩ := hbound m' hm'
      obtain ⟨hptm, hpkm⟩ := H1 _ (List.get_mem ps m hm)
      obtain ⟨hptm', hpkm'⟩ := H1 _ (List.get_mem ps m' hm')
      by_cases hsame : (ps.get ⟨m, hm⟩).tid = (ps.get ⟨m', hm'⟩).tid ∧
          (ps.get ⟨m, hm⟩).key = (ps.get ⟨m', hm'⟩).key
      · have htr := fresh_trace rows d ps H1 m hm
        have htr' := fresh_trace rows d ps H1 m' hm'
        have h1 := cnt_take_succ_of_get ps m hm
        rw [hsame.1, hsame.2] at h1 htr
        have h2 := cnt_take_mono ps (ps.get ⟨m', hm'⟩).tid
          (ps.get ⟨m', hm'⟩).key (m + 1) m' (by omega)
        omega
      · rcases Nat.lt_trichotomy (ps.get ⟨m, hm⟩).key (ps.get ⟨m', hm'⟩).key
          with hkk | hkk | hkk
        · have := startF_mono_lex rows (ps.get ⟨m, hm⟩).tid
            (ps.get ⟨m, hm⟩).key (ps.get ⟨m', hm'⟩).tid
            (ps.get ⟨m', hm'⟩).key hptm (Or.inl hkk)
          omega
        · rcases Nat.lt_trichotomy (ps.get ⟨m, hm⟩).tid (ps.get ⟨m', hm'⟩).tid
            with htt | htt | htt
          · have := startF_mono_lex rows (ps.get ⟨m, hm⟩).tid
              (ps.get ⟨m, hm⟩).key (ps.get ⟨m', hm'⟩).tid
              (ps.get ⟨m', hm'⟩).key hptm (Or.inr ⟨hkk, htt⟩)
            omega
          · exact absurd ⟨htt, hkk⟩ hsame
          · have := startF_mono_lex rows (ps.get ⟨m', hm'⟩).tid
              (ps.get ⟨m', hm'⟩).key (ps.get ⟨m, hm⟩).tid
              (ps.get ⟨m, hm⟩).key hptm' (Or.inr ⟨hkk.symm, htt⟩)
            omega
        · have := startF_mono_lex rows (ps.get ⟨m', hm'⟩).tid
            (ps.get ⟨m', hm'⟩).key (ps.get ⟨m, hm⟩).tid
            (ps.get ⟨m, hm⟩).key hptm' (Or.inl hkk)
          omega
    intro m m' hm hm' hne
    rcases Nat.lt_trichotomy m m' with h | h | h
    · exact hstrict m m' hm hm' h
    · exact absurd h hne
    · exact (hstrict m' m hm' hm h).symm

/-- Witness for C9 at the spec's example: the first push is in bounds and
writes a different cell from the second. -/
theorem C9_push_safety_witness :
    (pushTrace (initStorage (⟨[], [], exampleRows⟩ : Builder Nat) 0)
      examplePushes).getD 0 0 <
      (initStorage (⟨[], [], exampleRows⟩ : Builder Nat) 0).data.length ∧
    (pushTrace (initStorage (⟨[], [], exampleRows⟩ : Builder Nat) 0)
      examplePushes).getD 0 0 ≠
      (pushTrace (initStorage (⟨[], [], exampleRows⟩ : Builder Nat) 0)
        examplePushes).getD 1 0 := by
  have h := C9_push_safety exampleRows (0 : Nat) examplePushes
    (by decide) (by decide)
  exact ⟨(h.1 0 (by decide)).2, h.2 0 1 (by decide) (by decide) (by decide)⟩

end GroupData
